import Mathlib

/-!
# go_english_tool: a vocabulary-quiz printer

Shallow embedding of `src/go_english_tool/main.go`.

Go strings are modelled as lists of Unicode code points (`Str`), i.e. the
program's text inputs are taken to be valid UTF-8.  Under that reading
`utf8.RuneCountInString` is the length of the list, and a byte-level search
for the three-byte encoding of U+FF1A coincides with a search for the code
point.  Library routines of the Go standard library that the program calls
(`strings.TrimSpace`, `strings.SplitN`, ...) are modelled after their
documented behaviour, specialised to the one-code-point separators the program
passes.
-/

namespace EnglishTool

/-- A Go string, as its sequence of code points. -/
abbrev Str := List Char

/-- The `Config` struct of main.go. -/
structure Config where
  WordFile : Str
  Count : Int
deriving DecidableEq, Repr

/-- The `Pair` struct of main.go: `EN` is the term, `JA` the translation. -/
structure Pair where
  EN : Str
  JA : Str
deriving DecidableEq, Repr

/-! ## Standard-library routines -/

/-- Go `unicode.IsSpace`: the Latin-1 cases are listed explicitly, the rest is
the Unicode `White_Space` table. -/
def isSpace (c : Char) : Bool :=
  let r := c.toNat
  if r ≤ 0xFF then
    r == 0x09 || r == 0x0A || r == 0x0B || r == 0x0C || r == 0x0D || r == 0x20
      || r == 0x85 || r == 0xA0
  else
    r == 0x1680 || (0x2000 ≤ r && r ≤ 0x200A) || r == 0x2028 || r == 0x2029
      || r == 0x202F || r == 0x205F || r == 0x3000

/-- Go `strings.TrimLeftFunc`. -/
def trimLeftFunc (f : Char → Bool) (s : Str) : Str :=
  s.dropWhile f

/-- Go `strings.TrimRightFunc`. -/
def trimRightFunc (f : Char → Bool) (s : Str) : Str :=
  (s.reverse.dropWhile f).reverse

/-- Go `strings.TrimSpace`: leading and trailing white space removed. -/
def trimSpace (s : Str) : Str :=
  trimRightFunc isSpace (trimLeftFunc isSpace s)

/-- Go `strings.TrimRight s cutset`: trailing code points of `cutset` removed. -/
def trimRight (s cutset : Str) : Str :=
  trimRightFunc (fun c => cutset.contains c) s

/-- Go `strings.HasPrefix`. -/
def hasPrefix (s pre : Str) : Bool :=
  pre.isPrefixOf s

/-- Go `strings.ReplaceAll` for a one-code-point pattern and replacement. -/
def replaceAll (s : Str) (old new : Char) : Str :=
  s.map (fun c => if c = old then new else c)

/-- Go `strings.Index` for a one-code-point pattern: position of the first
occurrence, `none` where Go returns `-1`. -/
def index : Str → Char → Option Nat
  | [], _ => none
  | x :: xs, c => if x = c then some 0 else (index xs c).map (· + 1)

/-- The loop of Go `strings.genSplit`, with `k` splits still allowed. -/
def genSplit (s : Str) (sep : Char) : Nat → List Str
  | 0 => [s]
  | k + 1 =>
    match index s sep with
    | none => [s]
    | some m => s.take m :: genSplit (s.drop (m + 1)) sep k

/-- Go `strings.SplitN` for a one-code-point separator and `n ≥ 0`. -/
def splitN (s : Str) (sep : Char) (n : Nat) : List Str :=
  if n = 0 then []
  else genSplit s sep (min n (s.length + 1) - 1)

/-- Go `strings.Repeat`. -/
def strRepeat (c : Char) (n : Nat) : Str :=
  List.replicate n c

/-! ## The program -/

/-- The function `splitPair` of main.go; the result is `(en, ja, ok)`. -/
def splitPair (s : Str) : Str × Str × Bool :=
  let s := replaceAll s '：' ':'
  match splitN s ':' 2 with
  | [p0, p1] =>
    let en := trimSpace p0
    let ja := trimSpace p1
    if en = [] ∨ ja = [] then ([], [], false)
    else (en, ja, true)
  | _ => ([], [], false)

/-- The variables the scan loop of `loadWordPairs` updates. -/
structure LoadState where
  inHeader : Bool
  pairs : List Pair
deriving DecidableEq, Repr

/-- One iteration of the scan loop of `loadWordPairs` on the scanned text. -/
def loadStep (st : LoadState) (text : Str) : LoadState :=
  let line := trimRight text ['\r', '\n']
  let trim := trimSpace line
  if st.inHeader then
    if trim = [] then { st with inHeader := false } else st
  else if trim = [] then st
  else if hasPrefix trim ['#'] || hasPrefix trim ['/', '/'] then st
  else
    match splitPair trim with
    | (en, ja, true) => { st with pairs := st.pairs ++ [⟨en, ja⟩] }
    | (_, _, false) => st

/-- What the scanner delivers for an opened file: the lines it yields and the
error, if any, that `sc.Err()` reports once scanning has stopped. -/
structure Scanned where
  lines : List Str
  err : Option Str
deriving DecidableEq, Repr

/-- The function `loadWordPairs` of main.go, as a function of the result of
`os.Open` on the path followed by the scan. -/
def loadWordPairs (opened : Except Str Scanned) : Except Str (List Pair) :=
  match opened with
  | .error e => .error e
  | .ok f =>
    let st := f.lines.foldl loadStep ⟨true, []⟩
    match f.err with
    | some e => .error e
    | none => .ok st.pairs

/-- A file that opens and is scanned to its end without error. -/
def fileOf (lines : List Str) : Except Str Scanned :=
  .ok ⟨lines, none⟩

/-- Lines 39-45 of `main`: the requested count clamped against `len(pairs)`. -/
def clampCount (count : Int) (n : Nat) : Int :=
  let count := if count ≤ 0 then 1 else count
  let count := if count > (n : Int) then (n : Int) else count
  count

/-- The swap closure handed to `Shuffle`:
`pairs[i], pairs[j] = pairs[j], pairs[i]`; `none` is an index-out-of-range
panic. -/
def swap (pairs : List Pair) (i j : Nat) : Option (List Pair) :=
  match pairs[i]?, pairs[j]? with
  | some a, some b => some ((pairs.set i b).set j a)
  | _, _ => none

/-- The loop of Go `rand.Shuffle`, counting `i` down to 1 and swapping position
`i` with a position `j` drawn from `[0, i]`.  The random source is the function
`src`; the draw made at position `i` is `src i` reduced to `[0, i]`. -/
def shuffleLoop (src : Nat → Nat) : Nat → List Pair → Option (List Pair)
  | 0, pairs => some pairs
  | i + 1, pairs =>
    match swap pairs (i + 1) (src (i + 1) % (i + 2)) with
    | none => none
    | some pairs => shuffleLoop src i pairs

/-- Go `rand.Shuffle(n, swap)` on the slice `pairs`. -/
def shuffle (src : Nat → Nat) (n : Nat) (pairs : List Pair) : Option (List Pair) :=
  shuffleLoop src (n - 1) pairs

/-- The slice expression `pairs[:count]`; `none` is a slice-bounds panic. -/
def sliceTo (pairs : List Pair) (count : Int) : Option (List Pair) :=
  if 0 ≤ count ∧ count ≤ (pairs.length : Int) then some (pairs.take count.toNat)
  else none

/-- Lines 39-52 of `main` up to the call of `printAligned`: the pairs handed to
the printer, or `none` on a panic. -/
def selectPairs (src : Nat → Nat) (pairs : List Pair) (count : Int) : Option (List Pair) :=
  let count := clampCount count pairs.length
  match shuffle src pairs.length pairs with
  | none => none
  | some pairs => sliceTo pairs count

/-- The body of the first loop of `printAligned`: `maxEN` after one more pair. -/
def maxENStep (maxEN : Int) (p : Pair) : Int :=
  let w : Int := (p.EN.length : Int)
  if w > maxEN then w else maxEN

/-- The first loop of `printAligned`: the value of `maxEN` when it ends. -/
def maxEN (pairs : List Pair) : Int :=
  pairs.foldl maxENStep 0

/-- The constant `gap` of `printAligned`. -/
def gap : Int := 4

/-- The function `printAligned` of main.go; the result is the list of the
texts written by the successive `Printf` calls. -/
def printAligned (pairs : List Pair) : List Str :=
  let maxEN := maxEN pairs
  pairs.map (fun p =>
    let enWidth : Int := (p.EN.length : Int)
    let pad := (maxEN - enWidth) + gap
    let pad := if pad < gap then gap else pad
    p.EN ++ strRepeat ' ' pad.toNat ++ p.JA ++ ['\n'])

/-- How a run ends: what was written to standard output and to the error
stream, and the exit code of the process. -/
structure Outcome where
  stdout : List Str
  stderr : List Str
  exitCode : Nat
deriving DecidableEq, Repr

/-- The function `exitf` of main.go: one message on the error stream, exit
code 1. -/
def exitf (msg : Str) : Outcome :=
  ⟨[], [msg], 1⟩

/-- A run stopped by a Go runtime panic (exit code 2). -/
def panicked : Outcome :=
  ⟨[], ["panic".toList], 2⟩

/-- The function `main` of main.go, as a function of the result of
`loadConfig`, of the file system (what opening and scanning each path gives)
and of the random source. -/
def main (cfg : Except Str Config) (fs : Str → Except Str Scanned) (src : Nat → Nat) :
    Outcome :=
  match cfg with
  | .error e => exitf ("config error: ".toList ++ e ++ ['\n'])
  | .ok cfg =>
    match loadWordPairs (fs cfg.WordFile) with
    | .error e => exitf ("word file error: ".toList ++ e ++ ['\n'])
    | .ok pairs =>
      if pairs.length = 0 then exitf "no word pairs found.\n".toList
      else
        match selectPairs src pairs cfg.Count with
        | none => panicked
        | some sel => ⟨printAligned sel, [], 0⟩

/-! ## The printer without its floor -/

/-- Go `strings.Repeat` with its `int` count: `none` is the panic on a negative
count. -/
def strRepeatInt (c : Char) (count : Int) : Option Str :=
  if count < 0 then none else some (List.replicate count.toNat c)

/-- The second loop of `printAligned` with the floor `if pad < gap` removed:
the texts written, or `none` when `strings.Repeat` panics.  This is the
comparison routine of the unreachable-floor claim, not a function of
main.go. -/
def printLinesNoFloor (maxEN : Int) : List Pair → Option (List Str)
  | [] => some []
  | p :: ps =>
    let enWidth : Int := (p.EN.length : Int)
    let pad := (maxEN - enWidth) + gap
    match strRepeatInt ' ' pad with
    | none => none
    | some spaces =>
      match printLinesNoFloor maxEN ps with
      | none => none
      | some rest => some ((p.EN ++ spaces ++ p.JA ++ ['\n']) :: rest)

/-- The function `printAligned` with the floor `if pad < gap` removed. -/
def printAlignedNoFloor (pairs : List Pair) : Option (List Str) :=
  printLinesNoFloor (maxEN pairs) pairs

/-! ## Paths and the configuration

`path/filepath` is modelled for a Unix system: the separator is `/` and there
are no volume names. -/

/-- Go `strings.Split` for a one-code-point separator. -/
def splitOn (sep : Char) : Str → List Str
  | [] => [[]]
  | c :: cs =>
    if c = sep then [] :: splitOn sep cs
    else
      match splitOn sep cs with
      | [] => [[c]]
      | x :: xs => (c :: x) :: xs

/-- Go `strings.Join elems "/"`. -/
def joinSlash : List Str → Str
  | [] => []
  | [e] => e
  | e :: es => e ++ '/' :: joinSlash es

/-- One path element handled by the loop of Go `filepath.Clean`.  `out` holds
the elements written so far, the last one first: an empty element and `.` are
dropped; `..` removes the last element written, unless there is none or it is
itself `..`, in which case `..` is written when the path is not rooted and
dropped when it is; any other element is written. -/
def cleanStep (rooted : Bool) (out : List Str) (elem : Str) : List Str :=
  if elem = [] ∨ elem = ['.'] then out
  else if elem = ['.', '.'] then
    match out with
    | [] => if rooted then [] else [elem]
    | top :: rest => if top = ['.', '.'] then elem :: out else rest
  else elem :: out

/-- Go `filepath.Clean`: the shortest path name equivalent to `path` by purely
lexical processing. -/
def clean (path : Str) : Str :=
  if path = [] then ['.']
  else
    let rooted := hasPrefix path ['/']
    let out := ((splitOn '/' path).foldl (cleanStep rooted) []).reverse
    if rooted then '/' :: joinSlash out
    else if out = [] then ['.']
    else joinSlash out

/-- Go `filepath.Join`: the elements from the first non-empty one on, joined
with `/` and cleaned; the empty string when every element is empty. -/
def join (elem : List Str) : Str :=
  match elem.dropWhile (fun e => e == []) with
  | [] => []
  | es => clean (joinSlash es)

/-- Go `filepath.Dir`: the path up to and including its last `/`, cleaned. -/
def dir (path : Str) : Str :=
  clean (path.rdropWhile (fun c => c != '/'))

/-- Go `filepath.IsAbs`. -/
def isAbs (path : Str) : Bool :=
  hasPrefix path ['/']

/-- What `loadConfig` reads from its environment: the result of
`os.UserHomeDir`, of `os.ReadFile` on a path, and of `json.Unmarshal` of the
bytes read into a `Config`. -/
structure ConfigEnv where
  home : Except Str Str
  readFile : Str → Except Str Str
  unmarshal : Str → Except Str Config

/-- The function `loadConfig` of main.go. -/
def loadConfig (env : ConfigEnv) : Except Str Config :=
  match env.home with
  | .error e => .error e
  | .ok home =>
    let configPath := join [home, "english".toList, "config.json".toList]
    match env.readFile configPath with
    | .error e => .error ("cannot read ".toList ++ configPath ++ ": ".toList ++ e)
    | .ok b =>
      match env.unmarshal b with
      | .error e => .error ("parse ".toList ++ configPath ++ ": ".toList ++ e)
      | .ok cfg =>
        if trimSpace cfg.WordFile = [] then
          .error ("word_file is empty in ".toList ++ configPath)
        else if !isAbs cfg.WordFile then
          .ok { cfg with WordFile := join [dir configPath, cfg.WordFile] }
        else .ok cfg

/-! ## Reference definition of the loader -/

/-- Reference definition, following the words of the specification (section
4.2) rather than the code: what one line after the header contributes.  Lines
empty after trimming and comment lines (trimmed form starting with `#` or `//`)
are skipped; any other line contributes the result of splitting its trimmed
form, when that succeeds. -/
def specBodyLine (l : Str) : Option Pair :=
  if trimSpace l = [] then none
  else if ['#'] <+: trimSpace l ∨ ['/', '/'] <+: trimSpace l then none
  else
    match splitPair (trimSpace l) with
    | (en, ja, true) => some ⟨en, ja⟩
    | (_, _, false) => none

/-- Reference definition, following the words of the specification (section
4.2) rather than the code: every line up to and including the first line that
is empty after trimming is discarded, and the remaining lines contribute their
pairs in file order. -/
def loadWordPairsSpec (lines : List Str) : List Pair :=
  ((lines.dropWhile (fun l => trimSpace l != [])).drop 1).filterMap specBodyLine

/-! ## Trimming lemmas -/

theorem trimRightFunc_eq_rdropWhile (f : Char → Bool) (s : Str) :
    trimRightFunc f s = s.rdropWhile f := rfl

theorem rdropWhile_split (f : Char → Bool) (s : Str) :
    ∃ t, s = s.rdropWhile f ++ t ∧ ∀ c ∈ t, f c = true := by
  refine ⟨(s.reverse.takeWhile f).reverse, ?_, ?_⟩
  · have h := List.takeWhile_append_dropWhile f s.reverse
    have h2 := congrArg List.reverse h
    rw [List.reverse_append, List.reverse_reverse] at h2
    exact h2.symm
  · intro c hc
    rw [List.mem_reverse] at hc
    exact List.mem_takeWhile_imp hc

theorem rdropWhile_append_of_all (f : Char → Bool) (m b : Str)
    (hb : ∀ c ∈ b, f c = true) : (m ++ b).rdropWhile f = m.rdropWhile f := by
  unfold List.rdropWhile
  rw [List.reverse_append, List.dropWhile_append_of_pos]
  intro c hc
  exact hb c (List.mem_reverse.mp hc)

theorem dropWhile_prefix_fixed (f : Char → Bool) (r t : Str) (hr : r ≠ [])
    (h : (r ++ t).dropWhile f = r ++ t) : r.dropWhile f = r := by
  cases r with
  | nil => exact absurd rfl hr
  | cons x r =>
    by_cases hx : f x = true
    · exfalso
      rw [List.cons_append, List.dropWhile_cons_of_pos hx] at h
      have hlen := (List.dropWhile_suffix f (l := r ++ t)).length_le
      rw [h] at hlen
      simp at hlen
    · exact List.dropWhile_cons_of_neg hx

/-- The generic trim: leading, then trailing, elements satisfying `f` removed. -/
theorem trim_fixed (f : Char → Bool) (s : Str) :
    ((s.dropWhile f).rdropWhile f).dropWhile f = (s.dropWhile f).rdropWhile f ∧
    ((s.dropWhile f).rdropWhile f).rdropWhile f = (s.dropWhile f).rdropWhile f := by
  refine ⟨?_, List.rdropWhile_idempotent f _⟩
  by_cases hr : (s.dropWhile f).rdropWhile f = []
  · rw [hr]; rfl
  · obtain ⟨t, ht, _⟩ := rdropWhile_split f (s.dropWhile f)
    apply dropWhile_prefix_fixed f _ t hr
    rw [← ht]
    exact List.dropWhile_idempotent f s

theorem trim_split (f : Char → Bool) (s : Str) :
    ∃ a b, s = a ++ (s.dropWhile f).rdropWhile f ++ b ∧
      (∀ c ∈ a, f c = true) ∧ (∀ c ∈ b, f c = true) := by
  obtain ⟨t, ht, hall⟩ := rdropWhile_split f (s.dropWhile f)
  refine ⟨s.takeWhile f, t, ?_, fun c hc => List.mem_takeWhile_imp hc, hall⟩
  rw [List.append_assoc, ← ht, List.takeWhile_append_dropWhile]

theorem trim_unique (f : Char → Bool) (a m b : Str)
    (ha : ∀ c ∈ a, f c = true) (hb : ∀ c ∈ b, f c = true)
    (hm1 : m.dropWhile f = m) (hm2 : m.rdropWhile f = m) :
    ((a ++ m ++ b).dropWhile f).rdropWhile f = m := by
  rw [List.append_assoc, List.dropWhile_append_of_pos ha]
  cases m with
  | nil =>
    have : ([] ++ b).dropWhile f = [] := by
      rw [List.nil_append]; exact List.dropWhile_eq_nil_iff.mpr hb
    rw [this]; rfl
  | cons x m =>
    have hx : ¬ f x = true := by
      intro hx
      rw [List.dropWhile_cons_of_pos hx] at hm1
      have hlen := (List.dropWhile_suffix f (l := m)).length_le
      rw [hm1] at hlen
      simp at hlen
    rw [List.cons_append, List.dropWhile_cons_of_neg hx, ← List.cons_append,
      rdropWhile_append_of_all f _ b hb, hm2]

theorem trimSpace_eq (s : Str) : trimSpace s = (s.dropWhile isSpace).rdropWhile isSpace := rfl

theorem trimSpace_idem (s : Str) : trimSpace (trimSpace s) = trimSpace s := by
  obtain ⟨h1, h2⟩ := trim_fixed isSpace s
  have h := trim_unique isSpace [] (trimSpace s) [] (by simp) (by simp) h1 h2
  simpa [trimSpace_eq] using h

theorem trimSpace_eq_nil_iff (s : Str) : trimSpace s = [] ↔ ∀ c ∈ s, isSpace c = true := by
  constructor
  · intro h
    obtain ⟨a, b, hs, ha, hb⟩ := trim_split isSpace s
    rw [← trimSpace_eq, h] at hs
    intro c hc
    rw [hs] at hc
    simp only [List.append_nil, List.mem_append] at hc
    rcases hc with hc | hc
    · exact ha c hc
    · exact hb c hc
  · intro h
    have := trim_unique isSpace s [] [] h (by simp) rfl rfl
    simpa [trimSpace_eq] using this

/-- Stripping trailing carriage returns and newlines first does not change the
trimmed form of a line. -/
theorem trimSpace_trimRight (s : Str) : trimSpace (trimRight s ['\r', '\n']) = trimSpace s := by
  obtain ⟨t, ht, hall⟩ := rdropWhile_split (fun c => ['\r', '\n'].contains c) s
  have e : trimRight s ['\r', '\n'] = s.rdropWhile (fun c => ['\r', '\n'].contains c) := rfl
  rw [← e] at ht
  generalize trimRight s ['\r', '\n'] = r at ht ⊢
  subst ht
  obtain ⟨a, b, hs, ha, hb⟩ := trim_split isSpace r
  obtain ⟨h1, h2⟩ := trim_fixed isSpace r
  have hsp : ∀ c ∈ b ++ t, isSpace c = true := by
    intro c hc
    rcases List.mem_append.mp hc with hc | hc
    · exact hb c hc
    · have := hall c hc
      simp only [List.contains_cons, List.contains_nil, Bool.or_false, Bool.or_eq_true,
        beq_iff_eq] at this
      rcases this with rfl | rfl <;> decide
  have key := trim_unique isSpace a _ (b ++ t) ha hsp h1 h2
  have hdec : r ++ t = a ++ (r.dropWhile isSpace).rdropWhile isSpace ++ (b ++ t) := by
    conv_lhs => rw [hs]
    simp [List.append_assoc]
  rw [trimSpace_eq, trimSpace_eq, hdec]
  exact key.symm

/-! ## Splitting lemmas -/

theorem index_eq_none_iff (s : Str) (c : Char) : index s c = none ↔ c ∉ s := by
  induction s with
  | nil => simp [index]
  | cons x xs ih =>
    by_cases hx : x = c
    · simp [index, hx]
    · have hx2 : ¬ c = x := fun h => hx h.symm
      simp [index, hx, hx2, ih]

theorem index_eq_some (s : Str) (c : Char) (m : Nat) (h : index s c = some m) :
    s.take m = s.takeWhile (fun x => x != c) ∧
    s.drop (m + 1) = (s.dropWhile (fun x => x != c)).drop 1 := by
  induction s generalizing m with
  | nil => simp [index] at h
  | cons x xs ih =>
    by_cases hx : x = c
    · simp [index, hx] at h
      subst h
      simp [hx]
    · cases hk : index xs c with
      | none => simp [index, hx, hk] at h
      | some k =>
        simp [index, hx, hk] at h
        subst h
        obtain ⟨h1, h2⟩ := ih k hk
        simp [hx, h1, h2]

theorem splitN_two (s : Str) (c : Char) :
    splitN s c 2 =
      if c ∈ s then [s.takeWhile (fun x => x != c), (s.dropWhile (fun x => x != c)).drop 1]
      else [s] := by
  cases s with
  | nil => simp [splitN, genSplit]
  | cons x xs =>
    have hmin : min 2 ((x :: xs).length + 1) - 1 = 1 := by
      simp only [List.length_cons]; omega
    simp only [splitN, hmin]
    cases hi : index (x :: xs) c with
    | none =>
      have := (index_eq_none_iff _ _).mp hi
      simp [genSplit, hi, this]
    | some m =>
      have hmem : c ∈ x :: xs := by
        by_contra hc
        rw [(index_eq_none_iff _ _).mpr hc] at hi
        exact Option.noConfusion hi
      obtain ⟨h1, h2⟩ := index_eq_some _ _ _ hi
      simp [genSplit, hi, hmem, h1, h2]

/-- What `splitPair` computes, in terms of the first ASCII colon of the
normalised string. -/
theorem splitPair_eq (s : Str) :
    splitPair s =
      if ':' ∈ replaceAll s '：' ':' then
        if trimSpace ((replaceAll s '：' ':').takeWhile (fun x => x != ':')) = [] ∨
            trimSpace (((replaceAll s '：' ':').dropWhile (fun x => x != ':')).drop 1) = [] then
          ([], [], false)
        else
          (trimSpace ((replaceAll s '：' ':').takeWhile (fun x => x != ':')),
            trimSpace (((replaceAll s '：' ':').dropWhile (fun x => x != ':')).drop 1), true)
      else ([], [], false) := by
  unfold splitPair
  simp only [splitN_two]
  by_cases h : ':' ∈ replaceAll s '：' ':'
  · simp only [h, if_true]
  · simp only [h, if_false]

/-! ## The scan loop -/

theorem loadStep_header_of_ne (acc : List Pair) (l : Str) (h : trimSpace l ≠ []) :
    loadStep ⟨true, acc⟩ l = ⟨true, acc⟩ := by
  simp [loadStep, trimSpace_trimRight, h]

theorem loadStep_header_of_blank (acc : List Pair) (l : Str) (h : trimSpace l = []) :
    loadStep ⟨true, acc⟩ l = ⟨false, acc⟩ := by
  simp [loadStep, trimSpace_trimRight, h]

theorem loadStep_body (acc : List Pair) (l : Str) :
    loadStep ⟨false, acc⟩ l = ⟨false, acc ++ (specBodyLine l).toList⟩ := by
  unfold loadStep specBodyLine
  simp only [trimSpace_trimRight, hasPrefix, List.isPrefixOf_iff_prefix, Bool.or_eq_true,
    decide_eq_true_eq, Bool.false_eq_true, if_false]
  by_cases h1 : trimSpace l = []
  · simp [h1]
  · simp only [h1, if_false]
    by_cases h2 : ['#'] <+: trimSpace l ∨ ['/', '/'] <+: trimSpace l
    · simp [h2]
    · simp only [h2, if_false]
      rcases hsp : splitPair (trimSpace l) with ⟨en, ja, ok⟩
      cases ok <;> simp

theorem foldl_loadStep_body (B : List Str) (acc : List Pair) :
    B.foldl loadStep ⟨false, acc⟩ = ⟨false, acc ++ B.filterMap specBodyLine⟩ := by
  induction B generalizing acc with
  | nil => simp
  | cons l B ih =>
    rw [List.foldl_cons, loadStep_body, ih]
    cases h : specBodyLine l <;> simp [List.filterMap_cons, h]

theorem foldl_loadStep_header (L : List Str) (acc : List Pair) :
    (L.foldl loadStep ⟨true, acc⟩).pairs = acc ++ loadWordPairsSpec L := by
  induction L generalizing acc with
  | nil => simp [loadWordPairsSpec]
  | cons l L ih =>
    by_cases h : trimSpace l = []
    · rw [List.foldl_cons, loadStep_header_of_blank acc l h, foldl_loadStep_body]
      simp [loadWordPairsSpec, h]
    · rw [List.foldl_cons, loadStep_header_of_ne acc l h, ih]
      simp [loadWordPairsSpec, h]

theorem loadWordPairs_fileOf (L : List Str) :
    loadWordPairs (fileOf L) = .ok (loadWordPairsSpec L) := by
  simp [loadWordPairs, fileOf, foldl_loadStep_header]

theorem loadWordPairs_ok (opened : Except Str Scanned) (ps : List Pair)
    (h : loadWordPairs opened = .ok ps) : ∃ L, opened = fileOf L ∧ ps = loadWordPairsSpec L := by
  rcases opened with e | ⟨L, err⟩
  · simp [loadWordPairs] at h
  · cases err with
    | some e => simp [loadWordPairs] at h
    | none =>
      refine ⟨L, rfl, ?_⟩
      have := loadWordPairs_fileOf L
      rw [fileOf] at this
      rw [this] at h
      exact (Except.ok.inj h).symm

theorem loadWordPairsSpec_header (H : List Str) (b : Str) (B : List Str)
    (hH : ∀ h ∈ H, trimSpace h ≠ []) (hb : trimSpace b = []) :
    loadWordPairsSpec (H ++ b :: B) = B.filterMap specBodyLine := by
  unfold loadWordPairsSpec
  rw [List.dropWhile_append_of_pos (by simpa using hH)]
  simp [hb]

theorem loadWordPairsSpec_no_blank (H : List Str) (hH : ∀ h ∈ H, trimSpace h ≠ []) :
    loadWordPairsSpec H = [] := by
  unfold loadWordPairsSpec
  have : H.dropWhile (fun l => trimSpace l != []) = [] :=
    List.dropWhile_eq_nil_iff.mpr (by simpa using hH)
  rw [this]; rfl

theorem loadWordPairsSpec_append (P B : List Str) (hP : ∃ l ∈ P, trimSpace l = []) :
    loadWordPairsSpec (P ++ B) = loadWordPairsSpec P ++ B.filterMap specBodyLine := by
  unfold loadWordPairsSpec
  have hne : P.dropWhile (fun l => trimSpace l != []) ≠ [] := by
    intro h
    obtain ⟨l, hl, hb⟩ := hP
    have := List.dropWhile_eq_nil_iff.mp h l hl
    simp [hb] at this
  rw [List.dropWhile_append]
  cases hd : P.dropWhile (fun l => trimSpace l != []) with
  | nil => exact absurd hd hne
  | cons x d => simp

theorem splitPair_ok (s en ja : Str) (h : splitPair s = (en, ja, true)) :
    en ≠ [] ∧ ja ≠ [] ∧ trimSpace en = en ∧ trimSpace ja = ja := by
  rw [splitPair_eq] at h
  split_ifs at h with h1 h2
  · simp at h
  · simp only [Prod.mk.injEq, and_true] at h
    obtain ⟨rfl, rfl⟩ := h
    push_neg at h2
    exact ⟨h2.1, h2.2, trimSpace_idem _, trimSpace_idem _⟩
  · simp at h

theorem specBodyLine_some (l : Str) (p : Pair) (h : specBodyLine l = some p) :
    splitPair (trimSpace l) = (p.EN, p.JA, true) := by
  unfold specBodyLine at h
  split_ifs at h
  rcases hsp : splitPair (trimSpace l) with ⟨en, ja, ok⟩
  rw [hsp] at h
  cases ok
  · simp at h
  · simp at h
    subst h
    rfl

theorem isSpace_normalise (c : Char) :
    isSpace (if c = '：' then ':' else c) = isSpace c := by
  by_cases h : c = '：'
  · subst h; decide
  · simp [h]

theorem trimSpace_replaceAll_eq_nil_iff (s : Str) :
    trimSpace (replaceAll s '：' ':') = [] ↔ trimSpace s = [] := by
  rw [trimSpace_eq_nil_iff, trimSpace_eq_nil_iff]
  simp only [replaceAll, List.mem_map, forall_exists_index, and_imp, forall_apply_eq_imp_iff₂,
    isSpace_normalise]

theorem mem_replaceAll_colon (s : Str) :
    ':' ∈ replaceAll s '：' ':' ↔ (':' ∈ s ∨ '：' ∈ s) := by
  simp only [replaceAll, List.mem_map]
  constructor
  · rintro ⟨c, hc, h⟩
    by_cases hf : c = '：'
    · subst hf; exact Or.inr hc
    · simp only [hf, if_false] at h
      subst h; exact Or.inl hc
  · rintro (h | h)
    · exact ⟨':', h, by decide⟩
    · exact ⟨'：', h, by decide⟩

theorem replaceAll_of_not_mem (s : Str) (h : '：' ∉ s) : replaceAll s '：' ':' = s := by
  induction s with
  | nil => rfl
  | cons x xs ih =>
    simp only [List.mem_cons, not_or] at h
    have hx : ¬ x = '：' := fun e => h.1 e.symm
    simp only [replaceAll, List.map_cons, hx, if_false, List.cons.injEq, true_and]
    exact ih h.2

theorem takeWhile_normalised (s : Str) :
    (replaceAll s '：' ':').takeWhile (fun x => x != ':') =
      replaceAll (s.takeWhile (fun c => c != ':' && c != '：')) '：' ':' := by
  unfold replaceAll
  rw [List.takeWhile_map]
  congr 2
  funext c
  by_cases h : c = '：'
  · subst h; decide
  · by_cases h2 : c = ':'
    · subst h2; decide
    · simp [h, h2]

theorem dropWhile_normalised (s : Str) :
    (replaceAll s '：' ':').dropWhile (fun x => x != ':') =
      replaceAll (s.dropWhile (fun c => c != ':' && c != '：')) '：' ':' := by
  unfold replaceAll
  rw [List.dropWhile_map]
  congr 2
  funext c
  by_cases h : c = '：'
  · subst h; decide
  · by_cases h2 : c = ':'
    · subst h2; decide
    · simp [h, h2]

theorem replaceAll_drop (s : Str) (k : Nat) :
    (replaceAll s '：' ':').drop k = replaceAll (s.drop k) '：' ':' := by
  simp [replaceAll, List.map_drop]

/-! ## Clamping, shuffling and printing -/

theorem clampCount_bounds (c : Int) (n : Nat) (hn : 0 < n) :
    1 ≤ clampCount c n ∧ clampCount c n ≤ (n : Int) := by
  simp only [clampCount]
  have : (1 : Int) ≤ (n : Int) := by omega
  split_ifs <;> omega

theorem swap_perm (l : List Pair) (i j : Nat) (hi : i < l.length) (hj : j < l.length) :
    ∃ r, swap l i j = some r ∧ r.Perm l := by
  have h1 : l[i]? = some l[i] := List.getElem?_eq_getElem hi
  have h2 : l[j]? = some l[j] := List.getElem?_eq_getElem hj
  refine ⟨(l.set i l[j]).set j l[i], by simp [swap, h1, h2], ?_⟩
  rw [List.perm_iff_count]
  intro x
  have hj2 : j < (l.set i l[j]).length := by simpa using hj
  rw [List.count_set _ _ _ _ hj2, List.count_set _ _ _ _ hi]
  have hb : (l.set i l[j])[j] = l[j] := by
    rw [List.getElem_set]
    split
    · rfl
    · rfl
  rw [hb]
  have hA : (if l[i] == x then 1 else 0) ≤ l.count x := by
    split
    · next h =>
      have hx : l[i] = x := by simpa using h
      have hmem : x ∈ l := hx ▸ List.getElem_mem hi
      exact List.count_pos_iff.mpr hmem
    · exact Nat.zero_le _
  omega

theorem shuffleLoop_perm (src : Nat → Nat) (i : Nat) (l : List Pair) (hi : i < l.length) :
    ∃ r, shuffleLoop src i l = some r ∧ r.Perm l := by
  induction i generalizing l with
  | zero => exact ⟨l, rfl, List.Perm.refl l⟩
  | succ i ih =>
    have hj : src (i + 1) % (i + 2) < l.length := by
      have := Nat.mod_lt (src (i + 1)) (show 0 < i + 2 by omega)
      omega
    obtain ⟨r, hr, hperm⟩ := swap_perm l (i + 1) _ hi hj
    have hlen : i < r.length := by rw [hperm.length_eq]; omega
    obtain ⟨r2, hr2, hperm2⟩ := ih r hlen
    exact ⟨r2, by simp [shuffleLoop, hr, hr2], hperm2.trans hperm⟩

theorem shuffle_perm (src : Nat → Nat) (l : List Pair) (hne : l ≠ []) :
    ∃ r, shuffle src l.length l = some r ∧ r.Perm l := by
  have hpos : 0 < l.length := List.length_pos.mpr hne
  exact shuffleLoop_perm src (l.length - 1) l (by omega)

theorem selectPairs_eq (src : Nat → Nat) (l : List Pair) (c : Int) (hne : l ≠ []) :
    ∃ r, shuffle src l.length l = some r ∧ r.Perm l ∧
      selectPairs src l c = some (r.take (clampCount c l.length).toNat) := by
  obtain ⟨r, hr, hperm⟩ := shuffle_perm src l hne
  have hpos : 0 < l.length := List.length_pos.mpr hne
  obtain ⟨h1, h2⟩ := clampCount_bounds c l.length hpos
  refine ⟨r, hr, hperm, ?_⟩
  have hin : 0 ≤ clampCount c l.length ∧ clampCount c l.length ≤ (r.length : Int) := by
    rw [hperm.length_eq]; omega
  simp [selectPairs, hr, sliceTo, hin]

theorem maxEN_foldl_ge (ps : List Pair) (m : Int) :
    m ≤ ps.foldl maxENStep m ∧ ∀ p ∈ ps, (p.EN.length : Int) ≤ ps.foldl maxENStep m := by
  induction ps generalizing m with
  | nil => simp
  | cons q ps ih =>
    simp only [List.foldl_cons, List.mem_cons, forall_eq_or_imp]
    obtain ⟨h1, h2⟩ := ih (maxENStep m q)
    have hstep : m ≤ maxENStep m q ∧ (q.EN.length : Int) ≤ maxENStep m q := by
      simp only [maxENStep]
      split_ifs <;> omega
    exact ⟨by omega, by omega, h2⟩

theorem maxEN_ge (ps : List Pair) (p : Pair) (hp : p ∈ ps) : (p.EN.length : Int) ≤ maxEN ps :=
  (maxEN_foldl_ge ps 0).2 p hp

theorem printAligned_eq (ps : List Pair) :
    printAligned ps = ps.map (fun p =>
      p.EN ++ List.replicate ((maxEN ps - (p.EN.length : Int)) + 4).toNat ' ' ++ p.JA ++ ['\n']) := by
  unfold printAligned
  apply List.map_congr_left
  intro p hp
  have := maxEN_ge ps p hp
  have hpad : ¬ (maxEN ps - (p.EN.length : Int)) + 4 < 4 := by omega
  simp only [hpad, if_false, strRepeat, gap]

/-! ## Claims about the loader and the pair splitter -/

/-- C1 (header skip): when no line of `H` is empty after trimming and `b` is,
the pairs loaded from `H ++ [b] ++ B` are the pairs loaded from `[b] ++ B`, so
no line at or before the first blank line contributes a pair; and a sequence
of lines without any blank line loads as the empty collection. -/
theorem header_skip (H : List Str) (b : Str) (B : List Str)
    (hH : ∀ h ∈ H, trimSpace h ≠ []) (hb : trimSpace b = []) :
    loadWordPairs (fileOf (H ++ b :: B)) = loadWordPairs (fileOf (b :: B)) ∧
    loadWordPairs (fileOf H) = .ok [] := by
  rw [loadWordPairs_fileOf, loadWordPairs_fileOf, loadWordPairs_fileOf,
    loadWordPairsSpec_header H b B hH hb, loadWordPairsSpec_no_blank H hH]
  have := loadWordPairsSpec_header [] b B (by simp) hb
  rw [List.nil_append] at this
  rw [this]
  exact ⟨rfl, rfl⟩

/-- Witness for C1: a header line with valid `term:translation` syntax, a
whitespace-only line and one body line. -/
theorem header_skip_witness :
    ((∀ h ∈ ["x:y".toList], trimSpace h ≠ []) ∧ trimSpace " ".toList = []) ∧
    (loadWordPairs (fileOf (["x:y".toList] ++ " ".toList :: ["a:b".toList])) =
        loadWordPairs (fileOf (" ".toList :: ["a:b".toList])) ∧
      loadWordPairs (fileOf ["x:y".toList]) = .ok []) :=
  ⟨⟨by decide, by decide⟩,
    header_skip ["x:y".toList] " ".toList ["a:b".toList] (by decide) (by decide)⟩

/-- C2, as stated, fails: `"missing:"` contains a colon, the trimmed text before
its first colon is `"missing"`, yet the term `splitPair` returns is the empty
string (with `ok = false`). -/
theorem splitPair_first_colon_counterexample :
    ':' ∈ "missing:".toList ∧
    trimSpace ("missing:".toList.takeWhile (fun c => c != ':' && c != '：')) = "missing".toList ∧
    splitPair "missing:".toList = ([], [], false) ∧
    (splitPair "missing:".toList).1 ≠
      trimSpace ("missing:".toList.takeWhile (fun c => c != ':' && c != '：')) := by
  decide

/-- C2 (first-colon-only split), amended: if `s` is `before`, then a colon
(ASCII or full-width), then `after`, and `before` holds no colon of either
kind, then `splitPair` splits there and nowhere else: with the full-width
colons of `after` replaced by ASCII ones, it reports "not a pair" when the
trimmed `before` or the trimmed `after` is empty, and otherwise succeeds with
the trimmed `before` as term and the trimmed `after`, later colons included, as
translation.  In particular `"a:b:c"` gives term `"a"`, translation `"b:c"`. -/
theorem splitPair_first_colon (s before after : Str) (c : Char)
    (hc : c = ':' ∨ c = '：') (hs : s = before ++ c :: after)
    (hb : ':' ∉ before ∧ '：' ∉ before) :
    splitPair s =
        (if trimSpace before = [] ∨ trimSpace (replaceAll after '：' ':') = [] then
          ([], [], false)
        else (trimSpace before, trimSpace (replaceAll after '：' ':'), true)) ∧
    splitPair "a:b:c".toList = ("a".toList, "b:c".toList, true) := by
  refine ⟨?_, by decide⟩
  have hn : replaceAll s '：' ':' = before ++ ':' :: replaceAll after '：' ':' := by
    subst hs
    have hcn : (if c = '：' then ':' else c) = ':' := by
      rcases hc with rfl | rfl <;> decide
    have hbn := replaceAll_of_not_mem before hb.2
    simp only [replaceAll] at hbn ⊢
    rw [List.map_append, List.map_cons, hbn, hcn]
  have hall : ∀ x ∈ before, (x != ':') = true := by
    intro x hx
    simp only [bne_iff_ne, ne_eq]
    rintro rfl
    exact hb.1 hx
  have htake : (before ++ ':' :: replaceAll after '：' ':').takeWhile (fun x => x != ':')
      = before := by
    rw [List.takeWhile_append_of_pos hall]
    simp
  have hdrop : (before ++ ':' :: replaceAll after '：' ':').dropWhile (fun x => x != ':')
      = ':' :: replaceAll after '：' ':' := by
    rw [List.dropWhile_append_of_pos hall]
    simp
  rw [splitPair_eq, hn, htake, hdrop]
  simp

/-- Witness for C2 (amended): the full-width colon is the split point and the
later ASCII colon stays in the translation. -/
theorem splitPair_first_colon_witness :
    (('：' = ':' ∨ '：' = '：') ∧ "猫：cat:x".toList = "猫".toList ++ '：' :: "cat:x".toList ∧
      (':' ∉ "猫".toList ∧ '：' ∉ "猫".toList)) ∧
    (splitPair "猫：cat:x".toList =
        (if trimSpace "猫".toList = [] ∨ trimSpace (replaceAll "cat:x".toList '：' ':') = [] then
          ([], [], false)
        else (trimSpace "猫".toList, trimSpace (replaceAll "cat:x".toList '：' ':'), true)) ∧
      splitPair "a:b:c".toList = ("a".toList, "b:c".toList, true)) :=
  ⟨⟨by decide, by decide, by decide⟩,
    splitPair_first_colon "猫：cat:x".toList "猫".toList "cat:x".toList '：'
      (by decide) (by decide) (by decide)⟩

/-- C3 (colon normalization): `splitPair` returns the same triple on `s` and on
`s` with every full-width colon U+FF1A replaced by the ASCII colon; `"猫：cat"`
and `"猫:cat"` both parse to term `"猫"`, translation `"cat"`. -/
theorem colon_normalization (s : Str) :
    splitPair s = splitPair (s.map (fun c => if c = '：' then ':' else c)) ∧
    splitPair "猫：cat".toList = ("猫".toList, "cat".toList, true) ∧
    splitPair "猫:cat".toList = ("猫".toList, "cat".toList, true) := by
  refine ⟨?_, by decide, by decide⟩
  have h : replaceAll (s.map (fun c => if c = '：' then ':' else c)) '：' ':' =
      replaceAll s '：' ':' := by
    simp only [replaceAll, List.map_map]
    congr 1
    funext c
    by_cases hc : c = '：'
    · subst hc; decide
    · simp [hc]
  rw [splitPair_eq s, splitPair_eq (s.map _), h]

/-- C4 (rejection iff): `splitPair` reports "not a pair" exactly when `s` holds
no colon of either kind, or the text before its first colon is empty after
trimming, or the text after its first colon is empty after trimming;
`":missing"` and `"missing:"` are both rejected. -/
theorem splitPair_reject_iff (s : Str) :
    ((splitPair s).2.2 = false ↔
      ((':' ∉ s ∧ '：' ∉ s) ∨
        trimSpace (s.takeWhile (fun c => c != ':' && c != '：')) = [] ∨
        trimSpace ((s.dropWhile (fun c => c != ':' && c != '：')).drop 1) = [])) ∧
    (splitPair ":missing".toList).2.2 = false ∧
    (splitPair "missing:".toList).2.2 = false := by
  refine ⟨?_, by decide, by decide⟩
  rw [splitPair_eq, takeWhile_normalised, dropWhile_normalised, replaceAll_drop]
  simp only [trimSpace_replaceAll_eq_nil_iff, mem_replaceAll_colon]
  by_cases hmem : ':' ∈ s ∨ '：' ∈ s
  · have hno : ¬ (':' ∉ s ∧ '：' ∉ s) := by tauto
    simp only [hmem, if_true, hno, false_or]
    split_ifs with h
    · simpa using h
    · simpa using h
  · have hno : ':' ∉ s ∧ '：' ∉ s := by tauto
    simp [hmem, hno]

/-- C5 (pair invariant): every pair `loadWordPairs` returns has a non-empty
term and a non-empty translation, each equal to its own trimmed form; the body
line `"  dog :  犬  "` yields term `"dog"` and translation `"犬"`. -/
theorem pair_invariant (opened : Except Str Scanned) (ps : List Pair) (p : Pair)
    (h : loadWordPairs opened = .ok ps) (hp : p ∈ ps) :
    (p.EN ≠ [] ∧ p.JA ≠ [] ∧ trimSpace p.EN = p.EN ∧ trimSpace p.JA = p.JA) ∧
    loadWordPairs (fileOf [[], "  dog :  犬  ".toList]) = .ok [⟨"dog".toList, "犬".toList⟩] := by
  refine ⟨?_, by rfl⟩
  obtain ⟨L, -, rfl⟩ := loadWordPairs_ok opened ps h
  unfold loadWordPairsSpec at hp
  obtain ⟨l, -, hl⟩ := List.mem_filterMap.mp hp
  exact splitPair_ok _ _ _ (specBodyLine_some l p hl)

/-- Witness for C5: the spec's example file and its second pair. -/
theorem pair_invariant_witness :
    (loadWordPairs (fileOf ["notes".toList, [], "apple:リンゴ".toList, " dog : 犬 ".toList]) =
        .ok [⟨"apple".toList, "リンゴ".toList⟩, ⟨"dog".toList, "犬".toList⟩] ∧
      (⟨"dog".toList, "犬".toList⟩ : Pair) ∈
        [(⟨"apple".toList, "リンゴ".toList⟩ : Pair), ⟨"dog".toList, "犬".toList⟩]) ∧
    (("dog".toList ≠ [] ∧ "犬".toList ≠ [] ∧ trimSpace "dog".toList = "dog".toList ∧
        trimSpace "犬".toList = "犬".toList) ∧
      loadWordPairs (fileOf [[], "  dog :  犬  ".toList]) =
        .ok [⟨"dog".toList, "犬".toList⟩]) :=
  ⟨⟨by rfl, by decide⟩,
    pair_invariant (fileOf ["notes".toList, [], "apple:リンゴ".toList, " dog : 犬 ".toList])
      [⟨"apple".toList, "リンゴ".toList⟩, ⟨"dog".toList, "犬".toList⟩]
      ⟨"dog".toList, "犬".toList⟩ (by rfl) (by decide)⟩

/-- C6 (comment and blank skip): once the header has ended (the lines `P` read
so far hold a blank line), a line whose trimmed form is empty or starts with
`#` or with `//` leaves the loop state as it is, so it produces no pair, and the
collection loaded with that line inserted is the one loaded without it. -/
theorem comment_blank_skip (P B : List Str) (c : Str)
    (hP : ∃ l ∈ P, trimSpace l = [])
    (hc : trimSpace c = [] ∨ ['#'] <+: trimSpace c ∨ ['/', '/'] <+: trimSpace c) :
    (∀ acc, loadStep ⟨false, acc⟩ c = ⟨false, acc⟩) ∧
    loadWordPairs (fileOf (P ++ c :: B)) = loadWordPairs (fileOf (P ++ B)) := by
  have hnone : specBodyLine c = none := by
    unfold specBodyLine
    rcases hc with h | h
    · simp [h]
    · simp [h]
  constructor
  · intro acc
    rw [loadStep_body, hnone]
    simp
  · rw [loadWordPairs_fileOf, loadWordPairs_fileOf, loadWordPairsSpec_append P _ hP,
      loadWordPairsSpec_append P _ hP, List.filterMap_cons, hnone]

/-- Witness for C6: the comment line `"#skip:this"`, which would split into a
pair, inserted in the body. -/
theorem comment_blank_skip_witness :
    ((∃ l ∈ ["notes".toList, []], trimSpace l = []) ∧
      (trimSpace "#skip:this".toList = [] ∨ ['#'] <+: trimSpace "#skip:this".toList ∨
        ['/', '/'] <+: trimSpace "#skip:this".toList) ∧
      splitPair "#skip:this".toList = ("#skip".toList, "this".toList, true)) ∧
    ((∀ acc, loadStep ⟨false, acc⟩ "#skip:this".toList = ⟨false, acc⟩) ∧
      loadWordPairs (fileOf (["notes".toList, []] ++ "#skip:this".toList :: ["cat:猫".toList])) =
        loadWordPairs (fileOf (["notes".toList, []] ++ ["cat:猫".toList]))) :=
  ⟨⟨by decide, by decide, by decide⟩,
    comment_blank_skip ["notes".toList, []] ["cat:猫".toList] "#skip:this".toList
      (by decide) (by decide)⟩

/-- C7 (loader reference definition and order): for every sequence of lines
the scan loop returns, without error, exactly the reference collection: in file
order, the successful `splitPair` results of the trimmed lines that come after
the first blank line and are neither blank nor comments.  The spec's example
file loads as apple/リンゴ, dog/犬, cat/猫. -/
theorem loader_reference (lines : List Str) :
    loadWordPairs (fileOf lines) = .ok (loadWordPairsSpec lines) ∧
    loadWordPairs (fileOf ["notes".toList, [], "apple:リンゴ".toList, "dog:犬".toList,
        "#skip:this".toList, "cat:猫".toList]) =
      .ok [⟨"apple".toList, "リンゴ".toList⟩, ⟨"dog".toList, "犬".toList⟩,
        ⟨"cat".toList, "猫".toList⟩] :=
  ⟨loadWordPairs_fileOf lines, by rfl⟩

/-! ## Claims about sampling and printing -/

/-- C8 (count clamping): for a non-empty collection of `n` pairs and any
requested count `c`, the effective count is 1 when `c ≤ 0`, `n` when `c > n`
and `c` otherwise, so it lies between 1 and `n`; the slice `pairs[:count]` is
in bounds (the selection does not panic) and exactly that many pairs are
selected and printed. -/
theorem count_clamping (pairs : List Pair) (c : Int) (src : Nat → Nat) (hne : pairs ≠ []) :
    clampCount c pairs.length =
        (if c ≤ 0 then 1 else if c > (pairs.length : Int) then (pairs.length : Int) else c) ∧
    1 ≤ clampCount c pairs.length ∧ clampCount c pairs.length ≤ (pairs.length : Int) ∧
    ∃ sel, selectPairs src pairs c = some sel ∧
      (sel.length : Int) = clampCount c pairs.length ∧
      ((printAligned sel).length : Int) = clampCount c pairs.length := by
  have hpos : 0 < pairs.length := List.length_pos.mpr hne
  obtain ⟨h1, h2⟩ := clampCount_bounds c pairs.length hpos
  refine ⟨?_, h1, h2, ?_⟩
  · simp only [clampCount]
    split_ifs <;> omega
  · obtain ⟨r, -, hperm, hsel⟩ := selectPairs_eq src pairs c hne
    refine ⟨_, hsel, ?_, ?_⟩
    · rw [List.length_take, hperm.length_eq]
      omega
    · rw [printAligned_eq, List.length_map, List.length_take, hperm.length_eq]
      omega

/-- Witness for C8: two pairs and the requested count 0. -/
theorem count_clamping_witness :
    ([(⟨"a".toList, "b".toList⟩ : Pair), ⟨"c".toList, "d".toList⟩] ≠ []) ∧
    (clampCount 0 [(⟨"a".toList, "b".toList⟩ : Pair), ⟨"c".toList, "d".toList⟩].length =
        (if (0 : Int) ≤ 0 then 1
          else if (0 : Int) >
              ([(⟨"a".toList, "b".toList⟩ : Pair), ⟨"c".toList, "d".toList⟩].length : Int) then
            ([(⟨"a".toList, "b".toList⟩ : Pair), ⟨"c".toList, "d".toList⟩].length : Int)
          else 0) ∧
      1 ≤ clampCount 0 [(⟨"a".toList, "b".toList⟩ : Pair), ⟨"c".toList, "d".toList⟩].length ∧
      clampCount 0 [(⟨"a".toList, "b".toList⟩ : Pair), ⟨"c".toList, "d".toList⟩].length ≤
        ([(⟨"a".toList, "b".toList⟩ : Pair), ⟨"c".toList, "d".toList⟩].length : Int) ∧
      ∃ sel, selectPairs (fun _ => 0) [⟨"a".toList, "b".toList⟩, ⟨"c".toList, "d".toList⟩] 0 =
          some sel ∧
        (sel.length : Int) =
          clampCount 0 [(⟨"a".toList, "b".toList⟩ : Pair), ⟨"c".toList, "d".toList⟩].length ∧
        ((printAligned sel).length : Int) =
          clampCount 0 [(⟨"a".toList, "b".toList⟩ : Pair), ⟨"c".toList, "d".toList⟩].length) :=
  ⟨by decide,
    count_clamping [⟨"a".toList, "b".toList⟩, ⟨"c".toList, "d".toList⟩] 0 (fun _ => 0)
      (by decide)⟩

/-- C9 (sampling yields a sub-collection without duplication): for a non-empty
loaded collection, any requested count and any random source (hence any
sequence of swaps the shuffle performs), the shuffle ends without a panic in a
permutation of the loaded collection and the selected pairs are its first
`count` elements; each selected pair occurs in the loaded collection, no more
often than there; and when the requested count is at least the size of the
collection the selection is a permutation of the whole collection. -/
theorem sampling_sub_collection (pairs : List Pair) (c : Int) (src : Nat → Nat)
    (hne : pairs ≠ []) :
    ∃ perm sel, shuffle src pairs.length pairs = some perm ∧ perm.Perm pairs ∧
      selectPairs src pairs c = some sel ∧
      sel = perm.take (clampCount c pairs.length).toNat ∧
      (∀ p ∈ sel, p ∈ pairs) ∧ (∀ p, sel.count p ≤ pairs.count p) ∧
      ((pairs.length : Int) ≤ c → sel.Perm pairs) := by
  obtain ⟨r, hr, hperm, hsel⟩ := selectPairs_eq src pairs c hne
  have hpos : 0 < pairs.length := List.length_pos.mpr hne
  refine ⟨r, _, hr, hperm, hsel, rfl, ?_, ?_, ?_⟩
  · intro p hp
    exact hperm.subset (List.mem_of_mem_take hp)
  · intro p
    rw [← hperm.count_eq p]
    exact (List.take_sublist _ r).count_le p
  · intro hc
    have hclamp : clampCount c pairs.length = (pairs.length : Int) := by
      simp only [clampCount]
      split_ifs <;> omega
    rw [hclamp, Int.toNat_ofNat, ← hperm.length_eq, List.take_length]
    exact hperm

/-- Witness for C9: three pairs, requested count 2, a fixed random source. -/
theorem sampling_sub_collection_witness :
    ([(⟨"a".toList, "b".toList⟩ : Pair), ⟨"c".toList, "d".toList⟩, ⟨"e".toList, "f".toList⟩]
        ≠ []) ∧
    (∃ perm sel,
      shuffle (fun i => i + 1)
          [(⟨"a".toList, "b".toList⟩ : Pair), ⟨"c".toList, "d".toList⟩,
            ⟨"e".toList, "f".toList⟩].length
          [⟨"a".toList, "b".toList⟩, ⟨"c".toList, "d".toList⟩, ⟨"e".toList, "f".toList⟩] =
        some perm ∧
      perm.Perm [⟨"a".toList, "b".toList⟩, ⟨"c".toList, "d".toList⟩, ⟨"e".toList, "f".toList⟩] ∧
      selectPairs (fun i => i + 1)
          [⟨"a".toList, "b".toList⟩, ⟨"c".toList, "d".toList⟩, ⟨"e".toList, "f".toList⟩] 2 =
        some sel ∧
      sel = perm.take (clampCount 2
          [(⟨"a".toList, "b".toList⟩ : Pair), ⟨"c".toList, "d".toList⟩,
            ⟨"e".toList, "f".toList⟩].length).toNat ∧
      (∀ p ∈ sel, p ∈
        [(⟨"a".toList, "b".toList⟩ : Pair), ⟨"c".toList, "d".toList⟩, ⟨"e".toList, "f".toList⟩]) ∧
      (∀ p, sel.count p ≤
        [(⟨"a".toList, "b".toList⟩ : Pair), ⟨"c".toList, "d".toList⟩,
          ⟨"e".toList, "f".toList⟩].count p) ∧
      ((([(⟨"a".toList, "b".toList⟩ : Pair), ⟨"c".toList, "d".toList⟩,
          ⟨"e".toList, "f".toList⟩].length : Nat) : Int) ≤ 2 → sel.Perm
        [⟨"a".toList, "b".toList⟩, ⟨"c".toList, "d".toList⟩, ⟨"e".toList, "f".toList⟩])) :=
  ⟨by decide,
    sampling_sub_collection
      [⟨"a".toList, "b".toList⟩, ⟨"c".toList, "d".toList⟩, ⟨"e".toList, "f".toList⟩] 2
      (fun i => i + 1) (by decide)⟩

/-- C10 (alignment invariant): `printAligned` writes one line per pair, in
batch order, and each line is the term, then exactly `pad` ASCII spaces, then
the translation (then the newline), where `pad = (maxEN - len(term)) + 4` with
lengths in code points; `pad` is never negative, and the code-point length of
the line without its newline is `len(term) + pad + len(translation)`. -/
theorem alignment_invariant (ps : List Pair) :
    printAligned ps = ps.map (fun p =>
      p.EN ++ List.replicate ((maxEN ps - (p.EN.length : Int)) + 4).toNat ' ' ++ p.JA ++ ['\n']) ∧
    ∀ p ∈ ps, 0 ≤ (maxEN ps - (p.EN.length : Int)) + 4 ∧
      ((p.EN ++ List.replicate ((maxEN ps - (p.EN.length : Int)) + 4).toNat ' ' ++ p.JA).length
          : Int) =
        (p.EN.length : Int) + ((maxEN ps - (p.EN.length : Int)) + 4) + (p.JA.length : Int) := by
  refine ⟨printAligned_eq ps, ?_⟩
  intro p hp
  have := maxEN_ge ps p hp
  refine ⟨by omega, ?_⟩
  simp only [List.length_append, List.length_replicate, Nat.cast_add]
  rw [Int.toNat_of_nonneg (by omega)]

/-- Witness for C10: the batch apple/リンゴ, dog/犬 is printed with 4 and 6
spaces, and the line of dog/犬 is 3 + 6 + 1 code points long. -/
theorem alignment_invariant_witness :
    (⟨"dog".toList, "犬".toList⟩ : Pair) ∈
      [(⟨"apple".toList, "リンゴ".toList⟩ : Pair), ⟨"dog".toList, "犬".toList⟩] ∧
    printAligned [⟨"apple".toList, "リンゴ".toList⟩, ⟨"dog".toList, "犬".toList⟩] =
      ["apple    リンゴ\n".toList, "dog      犬\n".toList] ∧
    (0 ≤ (maxEN [⟨"apple".toList, "リンゴ".toList⟩, ⟨"dog".toList, "犬".toList⟩] -
        ("dog".toList.length : Int)) + 4 ∧
      (("dog".toList ++ List.replicate
          ((maxEN [⟨"apple".toList, "リンゴ".toList⟩, ⟨"dog".toList, "犬".toList⟩] -
            ("dog".toList.length : Int)) + 4).toNat ' ' ++ "犬".toList).length : Int) =
        ("dog".toList.length : Int) +
          ((maxEN [⟨"apple".toList, "リンゴ".toList⟩, ⟨"dog".toList, "犬".toList⟩] -
            ("dog".toList.length : Int)) + 4) + ("犬".toList.length : Int)) :=
  ⟨by decide,
    (alignment_invariant
      [⟨"apple".toList, "リンゴ".toList⟩, ⟨"dog".toList, "犬".toList⟩]).1.trans (by decide),
    (alignment_invariant [⟨"apple".toList, "リンゴ".toList⟩, ⟨"dog".toList, "犬".toList⟩]).2
      ⟨"dog".toList, "犬".toList⟩ (by decide)⟩

/-! ## Claims about the printed columns and the exit codes -/

theorem maxEN_foldl_attained (ps : List Pair) (m : Int) :
    ps.foldl maxENStep m = m ∨ ∃ p ∈ ps, (p.EN.length : Int) = ps.foldl maxENStep m := by
  induction ps generalizing m with
  | nil => exact Or.inl rfl
  | cons q ps ih =>
    simp only [List.foldl_cons, List.mem_cons, exists_eq_or_imp]
    rcases ih (maxENStep m q) with h | ⟨p, hp, h⟩
    · rw [h]
      simp only [maxENStep]
      split_ifs
      · exact Or.inr (Or.inl rfl)
      · exact Or.inl rfl
    · exact Or.inr (Or.inr ⟨p, hp, h⟩)

theorem maxEN_attained (ps : List Pair) (hne : ps ≠ []) :
    ∃ p ∈ ps, (p.EN.length : Int) = maxEN ps := by
  rcases maxEN_foldl_attained ps 0 with h | h
  · obtain ⟨q, hq⟩ := List.exists_mem_of_ne_nil ps hne
    refine ⟨q, hq, ?_⟩
    have := maxEN_ge ps q hq
    have h0 : maxEN ps = 0 := h
    omega
  · exact h

/-- C11 (column alignment by code points): the `maxEN` that `printAligned`
computes is 0 for an empty batch and otherwise the largest code-point count of
a term of the batch (an upper bound that some pair attains), not a byte length:
for the one-pair batch 犬/dog it is 1 although the term takes 3 bytes.  In every
line written the term and its padding together take `maxEN + 4` code points, so
every translation starts at that column, and a pair whose term is widest is
padded with exactly 4 spaces. -/
theorem column_alignment (ps : List Pair) :
    (maxEN [] = 0 ∧ (∀ p ∈ ps, (p.EN.length : Int) ≤ maxEN ps) ∧
      (ps ≠ [] → ∃ p ∈ ps, (p.EN.length : Int) = maxEN ps)) ∧
    (maxEN [⟨"犬".toList, "dog".toList⟩] = 1 ∧ "犬".utf8ByteSize = 3) ∧
    ∀ i (h : i < ps.length), ∃ pad : Nat,
      (printAligned ps)[i]? = some (ps[i].EN ++ List.replicate pad ' ' ++ ps[i].JA ++ ['\n']) ∧
      (((ps[i].EN ++ List.replicate pad ' ').length : Nat) : Int) = maxEN ps + 4 ∧
      ((ps[i].EN.length : Int) = maxEN ps → pad = 4) := by
  refine ⟨⟨rfl, maxEN_ge ps, maxEN_attained ps⟩, ⟨by decide, by decide⟩, ?_⟩
  intro i h
  have hle := maxEN_ge ps ps[i] (List.getElem_mem h)
  refine ⟨((maxEN ps - (ps[i].EN.length : Int)) + 4).toNat, ?_, ?_, ?_⟩
  · rw [printAligned_eq, List.getElem?_map, List.getElem?_eq_getElem h]
    rfl
  · rw [List.length_append, List.length_replicate, Nat.cast_add,
      Int.toNat_of_nonneg (by omega)]
    omega
  · intro heq
    omega

/-- Witness for C11: in the batch apple/リンゴ, 犬/dog the widest term has 5
code points, the second line pads the one-code-point term 犬 with 8 spaces and
both translations start at column 9. -/
theorem column_alignment_witness :
    (1 < [(⟨"apple".toList, "リンゴ".toList⟩ : Pair), ⟨"犬".toList, "dog".toList⟩].length) ∧
    maxEN [⟨"apple".toList, "リンゴ".toList⟩, ⟨"犬".toList, "dog".toList⟩] = 5 ∧
    (∃ pad : Nat,
      (printAligned [⟨"apple".toList, "リンゴ".toList⟩, ⟨"犬".toList, "dog".toList⟩])[1]? =
        some ("犬".toList ++ List.replicate pad ' ' ++ "dog".toList ++ ['\n']) ∧
      ((("犬".toList ++ List.replicate pad ' ').length : Nat) : Int) =
        maxEN [⟨"apple".toList, "リンゴ".toList⟩, ⟨"犬".toList, "dog".toList⟩] + 4 ∧
      ((("犬".toList).length : Int) =
          maxEN [⟨"apple".toList, "リンゴ".toList⟩, ⟨"犬".toList, "dog".toList⟩] → pad = 4)) :=
  ⟨by decide, by decide,
    (column_alignment [⟨"apple".toList, "リンゴ".toList⟩, ⟨"犬".toList, "dog".toList⟩]).2.2 1
      (by decide)⟩

theorem specBodyLine_eq_none (l : Str)
    (h : trimSpace l = [] ∨ ['#'] <+: trimSpace l ∨ ['/', '/'] <+: trimSpace l ∨
      (splitPair (trimSpace l)).2.2 = false) : specBodyLine l = none := by
  unfold specBodyLine
  by_cases h1 : trimSpace l = []
  · simp [h1]
  · by_cases h2 : ['#'] <+: trimSpace l ∨ ['/', '/'] <+: trimSpace l
    · simp [h1, h2]
    · have h3 : (splitPair (trimSpace l)).2.2 = false := by tauto
      simp only [h1, h2, if_false]
      rcases hsp : splitPair (trimSpace l) with ⟨en, ja, ok⟩
      rw [hsp] at h3
      simp only at h3
      subst h3
      rfl

theorem main_of_no_pairs (c : Config) (fs : Str → Except Str Scanned) (src : Nat → Nat)
    (h : loadWordPairs (fs c.WordFile) = .ok []) :
    main (.ok c) fs src = exitf "no word pairs found.\n".toList := by
  simp [main, h]

theorem main_of_pairs (c : Config) (fs : Str → Except Str Scanned) (src : Nat → Nat)
    (pairs : List Pair) (h : loadWordPairs (fs c.WordFile) = .ok pairs) (hne : pairs ≠ []) :
    ∃ perm sel, shuffle src pairs.length pairs = some perm ∧ perm.Perm pairs ∧
      sel = perm.take (clampCount c.Count pairs.length).toNat ∧
      selectPairs src pairs c.Count = some sel ∧
      sel ≠ [] ∧ (sel.length : Int) = clampCount c.Count pairs.length ∧
      1 ≤ clampCount c.Count pairs.length ∧
      main (.ok c) fs src = ⟨printAligned sel, [], 0⟩ ∧
      ((main (.ok c) fs src).stdout.length : Int) = clampCount c.Count pairs.length := by
  obtain ⟨r, hr, hperm, hsel⟩ := selectPairs_eq src pairs c.Count hne
  have hpos : 0 < pairs.length := List.length_pos.mpr hne
  obtain ⟨h1, h2⟩ := clampCount_bounds c.Count pairs.length hpos
  have hlen : ¬ pairs.length = 0 := fun h0 => hne (List.length_eq_zero.mp h0)
  have hsl : ((r.take (clampCount c.Count pairs.length).toNat).length : Int) =
      clampCount c.Count pairs.length := by
    rw [List.length_take, hperm.length_eq]
    omega
  have hmain : main (.ok c) fs src =
      ⟨printAligned (r.take (clampCount c.Count pairs.length).toNat), [], 0⟩ := by
    simp [main, h, hlen, hsel]
  refine ⟨r, _, hr, hperm, rfl, hsel, ?_, hsl, h1, hmain, ?_⟩
  · intro hnil
    rw [hnil] at hsl
    simp only [List.length_nil, Nat.cast_zero] at hsl
    omega
  · rw [hmain]
    simp only []
    rw [printAligned_eq, List.length_map]
    exact hsl

/-- C12 (zero pairs and exit codes): the run, as a function of the result of
`loadConfig`, of the data file and of the random source, ends with exit code 0
or 1 and no other.  It ends with exit code 1, nothing on standard output and
one message on the error stream when the config fails, when the data file
fails to load, or when the loader yields no pair, which is the case for a file
whose lines after the first blank line (if any) are all blank, comments or
unsplittable.  Otherwise it ends with exit code 0 after printing the selected
pairs: the selection is the first `count` pairs of a permutation of the loaded
collection, with `count` the clamped request, it is not empty, and standard
output holds the lines `printAligned` writes for it, one per selected pair. -/
theorem exit_codes (cfg : Except Str Config) (fs : Str → Except Str Scanned)
    (src : Nat → Nat) :
    ((main cfg fs src).exitCode = 0 ∨ (main cfg fs src).exitCode = 1) ∧
    ((∃ e, cfg = .error e) →
      (main cfg fs src).exitCode = 1 ∧ (main cfg fs src).stdout = [] ∧
        (main cfg fs src).stderr.length = 1) ∧
    (∀ c, cfg = .ok c → (∃ e, loadWordPairs (fs c.WordFile) = .error e) →
      (main cfg fs src).exitCode = 1 ∧ (main cfg fs src).stdout = [] ∧
        (main cfg fs src).stderr.length = 1) ∧
    (∀ c, cfg = .ok c → loadWordPairs (fs c.WordFile) = .ok [] →
      (main cfg fs src).exitCode = 1 ∧ (main cfg fs src).stdout = [] ∧
        (main cfg fs src).stderr.length = 1) ∧
    (∀ c lines, cfg = .ok c → fs c.WordFile = fileOf lines →
      (∀ l ∈ (lines.dropWhile (fun l => trimSpace l != [])).drop 1,
        trimSpace l = [] ∨ ['#'] <+: trimSpace l ∨ ['/', '/'] <+: trimSpace l ∨
          (splitPair (trimSpace l)).2.2 = false) →
      (main cfg fs src).exitCode = 1 ∧ (main cfg fs src).stdout = [] ∧
        (main cfg fs src).stderr.length = 1) ∧
    (∀ c pairs, cfg = .ok c → loadWordPairs (fs c.WordFile) = .ok pairs → pairs ≠ [] →
      ∃ perm sel, shuffle src pairs.length pairs = some perm ∧ perm.Perm pairs ∧
        sel = perm.take (clampCount c.Count pairs.length).toNat ∧
        selectPairs src pairs c.Count = some sel ∧
        sel ≠ [] ∧ (sel.length : Int) = clampCount c.Count pairs.length ∧
        1 ≤ clampCount c.Count pairs.length ∧
        main cfg fs src = ⟨printAligned sel, [], 0⟩ ∧
        ((main cfg fs src).stdout.length : Int) = clampCount c.Count pairs.length) := by
  have hzero : ∀ c, cfg = .ok c → loadWordPairs (fs c.WordFile) = .ok [] →
      (main cfg fs src).exitCode = 1 ∧ (main cfg fs src).stdout = [] ∧
        (main cfg fs src).stderr.length = 1 := by
    intro c hc h
    subst hc
    rw [main_of_no_pairs c fs src h]
    exact ⟨rfl, rfl, rfl⟩
  refine ⟨?_, ?_, ?_, hzero, ?_, ?_⟩
  · rcases cfg with e | c
    · exact Or.inr rfl
    · rcases hl : loadWordPairs (fs c.WordFile) with e | pairs
      · right
        simp [main, hl, exitf]
      · by_cases hne : pairs = []
        · subst hne
          right
          rw [main_of_no_pairs c fs src hl]
          rfl
        · obtain ⟨perm, sel, -, -, -, -, -, -, -, hm, -⟩ := main_of_pairs c fs src pairs hl hne
          left
          rw [hm]
  · rintro ⟨e, rfl⟩
    exact ⟨rfl, rfl, rfl⟩
  · rintro c rfl ⟨e, he⟩
    simp [main, he, exitf]
  · intro c lines hc hfs hbody
    apply hzero c hc
    rw [hfs, loadWordPairs_fileOf]
    congr 1
    unfold loadWordPairsSpec
    rw [List.filterMap_eq_nil_iff]
    intro l hl
    exact specBodyLine_eq_none l (hbody l hl)
  · rintro c pairs rfl hl hne
    exact main_of_pairs c fs src pairs hl hne

/-- Witness for C12: with the same config, a data file whose body holds only a
comment and an unsplittable line ends the run with exit code 1, and the spec's
example file ends it with exit code 0 after two lines are written. -/
theorem exit_codes_witness :
    ((main (.ok ⟨"w.txt".toList, 2⟩)
        (fun _ => fileOf ["notes".toList, [], "#skip:this".toList, "no colon".toList])
        (fun _ => 0)).exitCode = 1 ∧
      (main (.ok ⟨"w.txt".toList, 2⟩)
        (fun _ => fileOf ["notes".toList, [], "#skip:this".toList, "no colon".toList])
        (fun _ => 0)).stdout = [] ∧
      (main (.ok ⟨"w.txt".toList, 2⟩)
        (fun _ => fileOf ["notes".toList, [], "#skip:this".toList, "no colon".toList])
        (fun _ => 0)).stderr.length = 1) ∧
    (∃ perm sel,
      shuffle (fun _ => 0)
          [(⟨"apple".toList, "リンゴ".toList⟩ : Pair), ⟨"dog".toList, "犬".toList⟩,
            ⟨"cat".toList, "猫".toList⟩].length
          [⟨"apple".toList, "リンゴ".toList⟩, ⟨"dog".toList, "犬".toList⟩,
            ⟨"cat".toList, "猫".toList⟩] = some perm ∧
        perm.Perm [⟨"apple".toList, "リンゴ".toList⟩, ⟨"dog".toList, "犬".toList⟩,
          ⟨"cat".toList, "猫".toList⟩] ∧
        sel = perm.take (clampCount (Config.mk "w.txt".toList 2).Count
          [(⟨"apple".toList, "リンゴ".toList⟩ : Pair), ⟨"dog".toList, "犬".toList⟩,
            ⟨"cat".toList, "猫".toList⟩].length).toNat ∧
        selectPairs (fun _ => 0)
          [⟨"apple".toList, "リンゴ".toList⟩, ⟨"dog".toList, "犬".toList⟩,
            ⟨"cat".toList, "猫".toList⟩] (Config.mk "w.txt".toList 2).Count = some sel ∧
        sel ≠ [] ∧
        (sel.length : Int) = clampCount (Config.mk "w.txt".toList 2).Count
          [(⟨"apple".toList, "リンゴ".toList⟩ : Pair), ⟨"dog".toList, "犬".toList⟩,
            ⟨"cat".toList, "猫".toList⟩].length ∧
        1 ≤ clampCount (Config.mk "w.txt".toList 2).Count
          [(⟨"apple".toList, "リンゴ".toList⟩ : Pair), ⟨"dog".toList, "犬".toList⟩,
            ⟨"cat".toList, "猫".toList⟩].length ∧
        main (.ok ⟨"w.txt".toList, 2⟩)
          (fun _ => fileOf ["notes".toList, [], "apple:リンゴ".toList, "dog:犬".toList,
            "#skip:this".toList, "cat:猫".toList])
          (fun _ => 0) = ⟨printAligned sel, [], 0⟩ ∧
        ((main (.ok ⟨"w.txt".toList, 2⟩)
          (fun _ => fileOf ["notes".toList, [], "apple:リンゴ".toList, "dog:犬".toList,
            "#skip:this".toList, "cat:猫".toList])
          (fun _ => 0)).stdout.length : Int) =
          clampCount (Config.mk "w.txt".toList 2).Count
            [(⟨"apple".toList, "リンゴ".toList⟩ : Pair), ⟨"dog".toList, "犬".toList⟩,
              ⟨"cat".toList, "猫".toList⟩].length) ∧
    (main (.ok ⟨"w.txt".toList, 2⟩)
        (fun _ => fileOf ["notes".toList, [], "apple:リンゴ".toList, "dog:犬".toList,
          "#skip:this".toList, "cat:猫".toList])
        (fun _ => 0)).stdout.length = 2 :=
  ⟨(exit_codes (.ok ⟨"w.txt".toList, 2⟩)
      (fun _ => fileOf ["notes".toList, [], "#skip:this".toList, "no colon".toList])
      (fun _ => 0)).2.2.2.2.1 ⟨"w.txt".toList, 2⟩
      ["notes".toList, [], "#skip:this".toList, "no colon".toList] rfl rfl (by decide),
    (exit_codes (.ok ⟨"w.txt".toList, 2⟩)
      (fun _ => fileOf ["notes".toList, [], "apple:リンゴ".toList, "dog:犬".toList,
        "#skip:this".toList, "cat:猫".toList])
      (fun _ => 0)).2.2.2.2.2 ⟨"w.txt".toList, 2⟩
      [⟨"apple".toList, "リンゴ".toList⟩, ⟨"dog".toList, "犬".toList⟩,
        ⟨"cat".toList, "猫".toList⟩] rfl (by rfl) (by decide),
    by decide⟩

/-! ## Claim about the floor of the padding -/

theorem printLinesNoFloor_eq (m : Int) (ps : List Pair)
    (h : ∀ p ∈ ps, (p.EN.length : Int) ≤ m) :
    printLinesNoFloor m ps = some (ps.map (fun p =>
      p.EN ++ List.replicate ((m - (p.EN.length : Int)) + 4).toNat ' ' ++ p.JA ++ ['\n'])) := by
  induction ps with
  | nil => rfl
  | cons q ps ih =>
    have hq : (q.EN.length : Int) ≤ m := h q (List.mem_cons_self q ps)
    have hpad : ¬ (m - (q.EN.length : Int)) + 4 < 0 := by omega
    have ih2 := ih (fun p hp => h p (List.mem_cons_of_mem q hp))
    simp only [printLinesNoFloor, strRepeatInt, gap, hpad, if_false, ih2, List.map_cons]

/-- C14 (the defensive floor is unreachable): for every batch and every pair in
it `maxEN` is at least the code-point count of the term, so the computed
`pad = (maxEN - len(term)) + 4` is at least 4 and the test `pad < gap` is false;
the routine with the floor removed ends without a panic and writes exactly what
`printAligned` writes. -/
theorem floor_unreachable (ps : List Pair) :
    (∀ p ∈ ps, (p.EN.length : Int) ≤ maxEN ps ∧
      4 ≤ (maxEN ps - (p.EN.length : Int)) + gap ∧
      ¬ ((maxEN ps - (p.EN.length : Int)) + gap < gap)) ∧
    printAlignedNoFloor ps = some (printAligned ps) := by
  constructor
  · intro p hp
    have := maxEN_ge ps p hp
    simp only [gap]
    omega
  · rw [printAlignedNoFloor, printLinesNoFloor_eq (maxEN ps) ps (maxEN_ge ps), printAligned_eq]

/-- Witness for C14: the batch apple/リンゴ, 犬/dog, whose second term is
narrower than the first. -/
theorem floor_unreachable_witness :
    (⟨"犬".toList, "dog".toList⟩ : Pair) ∈
      [(⟨"apple".toList, "リンゴ".toList⟩ : Pair), ⟨"犬".toList, "dog".toList⟩] ∧
    (("犬".toList.length : Int) ≤
        maxEN [⟨"apple".toList, "リンゴ".toList⟩, ⟨"犬".toList, "dog".toList⟩] ∧
      4 ≤ (maxEN [⟨"apple".toList, "リンゴ".toList⟩, ⟨"犬".toList, "dog".toList⟩] -
        ("犬".toList.length : Int)) + gap ∧
      ¬ ((maxEN [⟨"apple".toList, "リンゴ".toList⟩, ⟨"犬".toList, "dog".toList⟩] -
        ("犬".toList.length : Int)) + gap < gap)) ∧
    printAlignedNoFloor [⟨"apple".toList, "リンゴ".toList⟩, ⟨"犬".toList, "dog".toList⟩] =
      some (printAligned [⟨"apple".toList, "リンゴ".toList⟩, ⟨"犬".toList, "dog".toList⟩]) :=
  ⟨by decide,
    (floor_unreachable [⟨"apple".toList, "リンゴ".toList⟩, ⟨"犬".toList, "dog".toList⟩]).1
      ⟨"犬".toList, "dog".toList⟩ (by decide),
    (floor_unreachable [⟨"apple".toList, "リンゴ".toList⟩, ⟨"犬".toList, "dog".toList⟩]).2⟩

/-! ## Claims about round trips and colons in the parsed fields -/

theorem mem_of_mem_trimSpace (s : Str) (c : Char) (h : c ∈ trimSpace s) : c ∈ s := by
  rw [trimSpace_eq] at h
  have h1 := (List.rdropWhile_prefix isSpace (l := s.dropWhile isSpace)).subset h
  exact (List.dropWhile_suffix isSpace (l := s)).subset h1

theorem trimSpace_map (f : Char → Char) (hf : ∀ c, isSpace (f c) = isSpace c) (s : Str) :
    trimSpace (s.map f) = (trimSpace s).map f := by
  have hcomp : (isSpace ∘ f) = isSpace := funext hf
  simp only [trimSpace_eq, List.rdropWhile, List.dropWhile_map, hcomp, ← List.map_reverse]

theorem trimSpace_eq_self (t : Str) (ht : t ≠ []) (h1 : isSpace (t.head ht) = false)
    (h2 : isSpace (t.getLast ht) = false) : trimSpace t = t := by
  have hd : t.dropWhile isSpace = t := by
    cases t with
    | nil => exact absurd rfl ht
    | cons x xs =>
      apply List.dropWhile_cons_of_neg
      simpa using h1
  have hr : t.rdropWhile isSpace = t := by
    rw [List.rdropWhile_eq_self_iff]
    intro _
    simpa using h2
  rw [trimSpace_eq, hd, hr]

theorem splitPair_of_parts (before after : Str) (c : Char) (hc : c = ':' ∨ c = '：')
    (hb : ':' ∉ before ∧ '：' ∉ before) :
    splitPair (before ++ c :: after) =
      (if trimSpace before = [] ∨ trimSpace (replaceAll after '：' ':') = [] then
        ([], [], false)
      else (trimSpace before, trimSpace (replaceAll after '：' ':'), true)) := by
  have hn : replaceAll (before ++ c :: after) '：' ':' =
      before ++ ':' :: replaceAll after '：' ':' := by
    have hcn : (if c = '：' then ':' else c) = ':' := by
      rcases hc with rfl | rfl <;> decide
    have hbn := replaceAll_of_not_mem before hb.2
    simp only [replaceAll] at hbn ⊢
    rw [List.map_append, List.map_cons, hbn, hcn]
  have hall : ∀ x ∈ before, (x != ':') = true := by
    intro x hx
    simp only [bne_iff_ne, ne_eq]
    rintro rfl
    exact hb.1 hx
  have htake : (before ++ ':' :: replaceAll after '：' ':').takeWhile (fun x => x != ':')
      = before := by
    rw [List.takeWhile_append_of_pos hall]
    simp
  have hdrop : (before ++ ':' :: replaceAll after '：' ':').dropWhile (fun x => x != ':')
      = ':' :: replaceAll after '：' ':' := by
    rw [List.dropWhile_append_of_pos hall]
    simp
  rw [splitPair_eq, hn, htake, hdrop]
  simp

/-- C15 (round trip of `splitPair`): when `t` and `u` are non-empty, neither
starts or ends with white space, `t` holds no colon of either kind and `u` no
full-width colon, `splitPair` succeeds on `t ++ ":" ++ u` and on
`t ++ "：" ++ u` and returns exactly `(t, u)`. -/
theorem splitPair_round_trip (t u : Str) (ht : t ≠ []) (hu : u ≠ [])
    (ht1 : isSpace (t.head ht) = false) (ht2 : isSpace (t.getLast ht) = false)
    (hu1 : isSpace (u.head hu) = false) (hu2 : isSpace (u.getLast hu) = false)
    (htc : ':' ∉ t ∧ '：' ∉ t) (huc : '：' ∉ u) :
    splitPair (t ++ ":".toList ++ u) = (t, u, true) ∧
    splitPair (t ++ "：".toList ++ u) = (t, u, true) := by
  have e1 : t ++ ":".toList ++ u = t ++ ':' :: u := by simp
  have e2 : t ++ "：".toList ++ u = t ++ '：' :: u := by simp
  have htt := trimSpace_eq_self t ht ht1 ht2
  have huu := trimSpace_eq_self u hu hu1 hu2
  have hno : ¬ (t = [] ∨ u = []) := by tauto
  rw [e1, e2, splitPair_of_parts t u ':' (Or.inl rfl) htc,
    splitPair_of_parts t u '：' (Or.inr rfl) htc, replaceAll_of_not_mem u huc, htt, huu]
  simp only [hno, if_false, and_self]

/-- Witness for C15: the term `dog` and the translation `犬:いぬ`, which keeps
its ASCII colon. -/
theorem splitPair_round_trip_witness :
    (isSpace ("dog".toList.head (by decide)) = false ∧
      isSpace ("dog".toList.getLast (by decide)) = false ∧
      isSpace ("犬:いぬ".toList.head (by decide)) = false ∧
      isSpace ("犬:いぬ".toList.getLast (by decide)) = false ∧
      (':' ∉ "dog".toList ∧ '：' ∉ "dog".toList) ∧ '：' ∉ "犬:いぬ".toList) ∧
    (splitPair ("dog".toList ++ ":".toList ++ "犬:いぬ".toList) =
        ("dog".toList, "犬:いぬ".toList, true) ∧
      splitPair ("dog".toList ++ "：".toList ++ "犬:いぬ".toList) =
        ("dog".toList, "犬:いぬ".toList, true)) :=
  ⟨by decide,
    splitPair_round_trip "dog".toList "犬:いぬ".toList (by decide) (by decide) (by decide)
      (by decide) (by decide) (by decide) (by decide) (by decide)⟩

/-- C16 (colons in the parsed fields): when `splitPair` succeeds on `s`, the
term holds no colon of either kind and is the trimmed text before the first
colon of `s`; the translation holds no full-width colon and is the trimmed text
after that first colon with each full-width colon turned into an ASCII colon.
For `"a:b：c"` the translation is `"b:c"`, which is not a contiguous part of the
input. -/
theorem parsed_fields_colons (s en ja : Str) (h : splitPair s = (en, ja, true)) :
    (':' ∉ en ∧ '：' ∉ en ∧ '：' ∉ ja) ∧
    en = trimSpace (s.takeWhile (fun c => c != ':' && c != '：')) ∧
    ja = (trimSpace ((s.dropWhile (fun c => c != ':' && c != '：')).drop 1)).map
      (fun c => if c = '：' then ':' else c) ∧
    splitPair "a:b：c".toList = ("a".toList, "b:c".toList, true) ∧
    ¬ ("b:c".toList <:+: "a:b：c".toList) := by
  have hnf : ∀ x : Str, '：' ∉ replaceAll x '：' ':' := by
    intro x hx
    simp only [replaceAll, List.mem_map] at hx
    obtain ⟨c, -, hc⟩ := hx
    by_cases hcf : c = '：'
    · simp only [hcf, if_true] at hc
      exact absurd hc (by decide)
    · simp only [hcf, if_false] at hc
  rw [splitPair_eq] at h
  split_ifs at h with h1 h2
  · simp at h
  · simp only [Prod.mk.injEq, and_true] at h
    obtain ⟨hen, hja⟩ := h
    have hen2 : en = trimSpace (s.takeWhile (fun c => c != ':' && c != '：')) := by
      rw [← hen, takeWhile_normalised, replaceAll_of_not_mem]
      intro hmem
      have := List.mem_takeWhile_imp hmem
      simp at this
    have hja2 : ja = (trimSpace ((s.dropWhile (fun c => c != ':' && c != '：')).drop 1)).map
        (fun c => if c = '：' then ':' else c) := by
      rw [← hja, dropWhile_normalised, replaceAll_drop]
      exact trimSpace_map _ isSpace_normalise _
    refine ⟨⟨?_, ?_, ?_⟩, hen2, hja2, by decide, by decide⟩
    · intro hmem
      rw [← hen] at hmem
      have := List.mem_takeWhile_imp (mem_of_mem_trimSpace _ _ hmem)
      simp at this
    · intro hmem
      rw [← hen] at hmem
      exact hnf s ((List.takeWhile_prefix _).subset (mem_of_mem_trimSpace _ _ hmem))
    · intro hmem
      rw [← hja] at hmem
      have h3 := mem_of_mem_trimSpace _ _ hmem
      exact hnf s ((List.dropWhile_suffix _).subset ((List.drop_suffix 1 _).subset h3))
  · simp at h

/-- Witness for C16: the input `"a:b：c"`. -/
theorem parsed_fields_colons_witness :
    splitPair "a:b：c".toList = ("a".toList, "b:c".toList, true) ∧
    ((':' ∉ "a".toList ∧ '：' ∉ "a".toList ∧ '：' ∉ "b:c".toList) ∧
      "a".toList = trimSpace ("a:b：c".toList.takeWhile (fun c => c != ':' && c != '：')) ∧
      "b:c".toList =
        (trimSpace (("a:b：c".toList.dropWhile (fun c => c != ':' && c != '：')).drop 1)).map
          (fun c => if c = '：' then ':' else c) ∧
      splitPair "a:b：c".toList = ("a".toList, "b:c".toList, true) ∧
      ¬ ("b:c".toList <:+: "a:b：c".toList)) :=
  ⟨by decide, parsed_fields_colons "a:b：c".toList "a".toList "b:c".toList (by decide)⟩

/-! ## Claim about the configuration -/

theorem cleanStep_ne_nil (rooted : Bool) (out : List Str) (elem : Str)
    (h : ∀ e ∈ out, e ≠ []) : ∀ e ∈ cleanStep rooted out elem, e ≠ [] := by
  unfold cleanStep
  by_cases h1 : elem = [] ∨ elem = ['.']
  · simpa [h1] using h
  · simp only [h1, if_false]
    by_cases h2 : elem = ['.', '.']
    · simp only [h2, if_true]
      cases out with
      | nil => cases rooted <;> simp
      | cons top rest =>
        by_cases h3 : top = ['.', '.']
        · simp only [h3, if_true]
          intro e he
          rcases List.mem_cons.mp he with rfl | he
          · simp
          · rw [← h3] at he
            exact h e he
        · simp only [h3, if_false]
          intro e he
          exact h e (List.mem_cons_of_mem top he)
    · simp only [h2, if_false]
      intro e he
      rcases List.mem_cons.mp he with rfl | he
      · tauto
      · exact h e he

theorem foldl_cleanStep_ne_nil (rooted : Bool) (elems : List Str) (out : List Str)
    (h : ∀ e ∈ out, e ≠ []) : ∀ e ∈ elems.foldl (cleanStep rooted) out, e ≠ [] := by
  induction elems generalizing out with
  | nil => exact h
  | cons x xs ih => exact ih _ (cleanStep_ne_nil rooted out x h)

theorem joinSlash_ne_nil (es : List Str) (hne : es ≠ []) (h : ∀ e ∈ es, e ≠ []) :
    joinSlash es ≠ [] := by
  cases es with
  | nil => exact absurd rfl hne
  | cons e es =>
    cases es with
    | nil => simpa [joinSlash] using h
    | cons e2 es => simp [joinSlash]

theorem clean_ne_nil (path : Str) : clean path ≠ [] := by
  unfold clean
  by_cases h1 : path = []
  · simp [h1]
  · simp only [h1, if_false]
    by_cases h2 : hasPrefix path ['/'] = true
    · simp [h2]
    · simp only [h2, Bool.false_eq_true, if_false]
      split_ifs with h3
      · simp
      · apply joinSlash_ne_nil _ h3
        intro e he
        exact foldl_cleanStep_ne_nil _ _ [] (by simp) e (List.mem_reverse.mp he)

theorem isAbs_iff (path : Str) : isAbs path = true ↔ ∃ rest, path = '/' :: rest := by
  cases path with
  | nil => simp [isAbs, hasPrefix]
  | cons c cs =>
    simp only [isAbs, hasPrefix, List.isPrefixOf, Bool.and_true, beq_iff_eq, List.cons.injEq]
    constructor
    · intro h
      exact ⟨cs, h.symm, rfl⟩
    · rintro ⟨rest, h, -⟩
      exact h.symm

theorem isAbs_clean (path : Str) (h : isAbs path = true) : isAbs (clean path) = true := by
  obtain ⟨rest, rfl⟩ := (isAbs_iff _).mp h
  have h2 : hasPrefix ('/' :: rest) ['/'] = true := h
  rw [isAbs_iff]
  unfold clean
  simp only [h2, if_true, List.cons_ne_nil, if_false]
  exact ⟨_, rfl⟩

theorem join_two (d w : Str) (hd : d ≠ []) : join [d, w] = clean (d ++ '/' :: w) := by
  simp [join, hd, joinSlash]

theorem isAbs_dir (path : Str) (h : isAbs path = true) : isAbs (dir path) = true := by
  apply isAbs_clean
  obtain ⟨rest, rfl⟩ := (isAbs_iff _).mp h
  obtain ⟨t, ht, hall⟩ := rdropWhile_split (fun c => c != '/') ('/' :: rest)
  rw [isAbs_iff]
  cases hr : ('/' :: rest).rdropWhile (fun c => c != '/') with
  | nil =>
    rw [hr, List.nil_append] at ht
    have := hall '/' (ht ▸ List.mem_cons_self '/' rest)
    simp at this
  | cons x xs =>
    rw [hr, List.cons_append] at ht
    have hx : x = '/' := (List.cons.inj ht).1.symm
    exact ⟨xs, by rw [hx]⟩

theorem trimSpace_ne_nil_of_isAbs (path : Str) (h : isAbs path = true) :
    trimSpace path ≠ [] := by
  obtain ⟨rest, rfl⟩ := (isAbs_iff _).mp h
  intro hnil
  have := (trimSpace_eq_nil_iff _).mp hnil '/' (List.mem_cons_self '/' rest)
  exact absurd this (by decide)

theorem configPath_eq (home : Str) (hne : home ≠ []) :
    join [home, "english".toList, "config.json".toList] =
      clean (home ++ "/english/config.json".toList) := by
  simp [join, hne, joinSlash]

theorem splitOn_of_not_mem (e : Str) (h : '/' ∉ e) : splitOn '/' e = [e] := by
  induction e with
  | nil => rfl
  | cons c cs ih =>
    simp only [List.mem_cons, not_or] at h
    have hc : ¬ c = '/' := fun e => h.1 e.symm
    simp [splitOn, hc, ih h.2]

theorem splitOn_append_sep (e rest : Str) (h : '/' ∉ e) :
    splitOn '/' (e ++ '/' :: rest) = e :: splitOn '/' rest := by
  induction e with
  | nil => simp [splitOn]
  | cons c cs ih =>
    simp only [List.mem_cons, not_or] at h
    have hc : ¬ c = '/' := fun e => h.1 e.symm
    simp [splitOn, hc, ih h.2]

theorem joinSlash_cons (e : Str) (es : List Str) (hne : es ≠ []) :
    joinSlash (e :: es) = e ++ '/' :: joinSlash es := by
  cases es with
  | nil => exact absurd rfl hne
  | cons x xs => rfl

theorem joinSlash_append (A B : List Str) (hA : A ≠ []) (hB : B ≠ []) :
    joinSlash (A ++ B) = joinSlash A ++ '/' :: joinSlash B := by
  induction A with
  | nil => exact absurd rfl hA
  | cons a A ih =>
    cases A with
    | nil => simp [joinSlash_cons a B hB, joinSlash]
    | cons a2 A =>
      rw [List.cons_append, joinSlash_cons a _ (by simp), ih (by simp),
        joinSlash_cons a _ (by simp)]
      simp

theorem splitOn_joinSlash (comps : List Str) (hne : comps ≠ [])
    (h : ∀ e ∈ comps, '/' ∉ e) : splitOn '/' (joinSlash comps) = comps := by
  induction comps with
  | nil => exact absurd rfl hne
  | cons e es ih =>
    have he : '/' ∉ e := h e (List.mem_cons_self e es)
    cases es with
    | nil => simpa [joinSlash] using splitOn_of_not_mem e he
    | cons e2 es =>
      rw [joinSlash_cons e _ (by simp), splitOn_append_sep e _ he,
        ih (by simp) (fun x hx => h x (List.mem_cons_of_mem e hx))]

theorem foldl_cleanStep_plain (rooted : Bool) (comps : List Str) (out : List Str)
    (h : ∀ e ∈ comps, e = [] ∨ (e ≠ ['.'] ∧ e ≠ ['.', '.'])) :
    comps.foldl (cleanStep rooted) out = (comps.filter (fun e => e != [])).reverse ++ out := by
  induction comps generalizing out with
  | nil => rfl
  | cons e es ih =>
    rw [List.foldl_cons, ih _ (fun x hx => h x (List.mem_cons_of_mem e hx))]
    rcases h e (List.mem_cons_self e es) with he | ⟨h1, h2⟩
    · simp [cleanStep, he]
    · by_cases he : e = []
      · simp [cleanStep, he]
      · simp [cleanStep, he, h1, h2, List.filter_cons]

theorem clean_rooted_joinSlash (comps : List Str) (hne : comps ≠ [])
    (h : ∀ e ∈ comps, '/' ∉ e ∧ (e = [] ∨ (e ≠ ['.'] ∧ e ≠ ['.', '.']))) :
    clean ('/' :: joinSlash comps) = '/' :: joinSlash (comps.filter (fun e => e != [])) := by
  have hsplit : splitOn '/' ('/' :: joinSlash comps) = [] :: comps := by
    have := splitOn_append_sep [] (joinSlash comps) (by simp)
    rw [List.nil_append] at this
    rw [this, splitOn_joinSlash comps hne (fun e he => (h e he).1)]
  have hfold := foldl_cleanStep_plain true ([] :: comps) []
    (by
      intro e he
      rcases List.mem_cons.mp he with rfl | he
      · exact Or.inl rfl
      · exact (h e he).2)
  unfold clean
  simp only [List.cons_ne_nil, if_false, hasPrefix, List.isPrefixOf, beq_self_eq_true,
    Bool.and_true, if_true, hsplit, hfold]
  simp

theorem filter_ne_nil_eq_self (comps : List Str) (h : ∀ e ∈ comps, e ≠ []) :
    comps.filter (fun e => e != []) = comps := by
  rw [List.filter_eq_self]
  intro e he
  simpa using h e he

theorem clean_rooted_plain (comps : List Str) (hne : comps ≠ [])
    (h : ∀ e ∈ comps, e ≠ [] ∧ e ≠ ['.'] ∧ e ≠ ['.', '.'] ∧ '/' ∉ e) :
    clean ('/' :: joinSlash comps) = '/' :: joinSlash comps := by
  rw [clean_rooted_joinSlash comps hne (fun e he => ⟨(h e he).2.2.2, Or.inr ⟨(h e he).2.1,
    (h e he).2.2.1⟩⟩), filter_ne_nil_eq_self comps (fun e he => (h e he).1)]

theorem dir_rooted_plain (A : List Str) (last : Str) (hA : A ≠ [])
    (h : ∀ e ∈ A, e ≠ [] ∧ e ≠ ['.'] ∧ e ≠ ['.', '.'] ∧ '/' ∉ e) (hl : '/' ∉ last) :
    dir ('/' :: joinSlash (A ++ [last])) = '/' :: joinSlash A := by
  have hall : ∀ c ∈ last, (c != '/') = true := by
    intro c hc
    simp only [bne_iff_ne, ne_eq]
    rintro rfl
    exact hl hc
  have e1 : '/' :: joinSlash (A ++ [last]) = ('/' :: joinSlash A ++ ['/']) ++ last := by
    rw [joinSlash_append A [last] hA (by simp)]
    simp [joinSlash]
  have e2 : '/' :: joinSlash A ++ ['/'] = '/' :: joinSlash (A ++ [[]]) := by
    rw [joinSlash_append A [[]] hA (by simp)]
    simp [joinSlash]
  unfold dir
  rw [e1, rdropWhile_append_of_all _ _ last hall,
    List.rdropWhile_concat_neg _ _ _ (by simp), e2,
    clean_rooted_joinSlash (A ++ [[]]) (by simp)]
  · rw [List.filter_append, filter_ne_nil_eq_self A (fun e he => (h e he).1)]
    simp
  · intro e he
    rcases List.mem_append.mp he with he | he
    · exact ⟨(h e he).2.2.2, Or.inr ⟨(h e he).2.1, (h e he).2.2.1⟩⟩
    · simp only [List.mem_singleton] at he
      subst he
      exact ⟨by simp, Or.inl rfl⟩

theorem isAbs_joinSlash_plain (wc : List Str) (hne : wc ≠ [])
    (h : ∀ e ∈ wc, e ≠ [] ∧ e ≠ ['.'] ∧ e ≠ ['.', '.'] ∧ '/' ∉ e) :
    isAbs (joinSlash wc) = false := by
  cases wc with
  | nil => exact absurd rfl hne
  | cons w ws =>
    obtain ⟨hw, -, -, hs⟩ := h w (List.mem_cons_self w ws)
    cases w with
    | nil => exact absurd rfl hw
    | cons c cs =>
      have hc : ¬ '/' = c := by
        intro e
        exact hs (e ▸ List.mem_cons_self _ cs)
      cases ws with
      | nil => simp [joinSlash, isAbs, hasPrefix, List.isPrefixOf, hc]
      | cons w2 ws => simp [joinSlash, isAbs, hasPrefix, List.isPrefixOf, hc]

theorem resolve_plain (hc wc : List Str) (hhc : hc ≠ []) (hwc : wc ≠ [])
    (Hh : ∀ e ∈ hc, e ≠ [] ∧ e ≠ ['.'] ∧ e ≠ ['.', '.'] ∧ '/' ∉ e)
    (Hw : ∀ e ∈ wc, e ≠ [] ∧ e ≠ ['.'] ∧ e ≠ ['.', '.'] ∧ '/' ∉ e) :
    dir (join ['/' :: joinSlash hc, "english".toList, "config.json".toList]) =
        '/' :: joinSlash hc ++ "/english".toList ∧
    join [dir (join ['/' :: joinSlash hc, "english".toList, "config.json".toList]),
        joinSlash wc] =
      '/' :: joinSlash hc ++ "/english".toList ++ '/' :: joinSlash wc := by
  have Hhe : ∀ e ∈ hc ++ ["english".toList],
      e ≠ [] ∧ e ≠ ['.'] ∧ e ≠ ['.', '.'] ∧ '/' ∉ e := by
    intro e he
    rcases List.mem_append.mp he with he | he
    · exact Hh e he
    · simp only [List.mem_singleton] at he
      subst he
      decide
  have Hall : ∀ e ∈ (hc ++ ["english".toList]) ++ ["config.json".toList],
      e ≠ [] ∧ e ≠ ['.'] ∧ e ≠ ['.', '.'] ∧ '/' ∉ e := by
    intro e he
    rcases List.mem_append.mp he with he | he
    · exact Hhe e he
    · simp only [List.mem_singleton] at he
      subst he
      decide
  have Hdw : ∀ e ∈ (hc ++ ["english".toList]) ++ wc,
      e ≠ [] ∧ e ≠ ['.'] ∧ e ≠ ['.', '.'] ∧ '/' ∉ e := by
    intro e he
    rcases List.mem_append.mp he with he | he
    · exact Hhe e he
    · exact Hw e he
  have ecfg : '/' :: joinSlash hc ++ "/english/config.json".toList =
      '/' :: joinSlash ((hc ++ ["english".toList]) ++ ["config.json".toList]) := by
    rw [joinSlash_append _ ["config.json".toList] (by simp) (by simp),
      joinSlash_append hc ["english".toList] hhc (by simp)]
    simp [joinSlash]
  have edir : '/' :: joinSlash hc ++ "/english".toList =
      '/' :: joinSlash (hc ++ ["english".toList]) := by
    rw [joinSlash_append hc ["english".toList] hhc (by simp)]
    simp [joinSlash]
  have hdir : dir (join ['/' :: joinSlash hc, "english".toList, "config.json".toList]) =
      '/' :: joinSlash hc ++ "/english".toList := by
    rw [configPath_eq _ (by simp), ecfg, clean_rooted_plain _ (by simp) Hall,
      dir_rooted_plain _ _ (by simp) Hhe (by decide), edir]
  refine ⟨hdir, ?_⟩
  rw [hdir, join_two _ _ (by simp), edir]
  have ejoin : '/' :: joinSlash (hc ++ ["english".toList]) ++ '/' :: joinSlash wc =
      '/' :: joinSlash ((hc ++ ["english".toList]) ++ wc) := by
    rw [joinSlash_append _ wc (by simp) hwc]
    simp
  rw [ejoin, clean_rooted_plain _ (by simp) Hdw]

/-- C13, as stated, fails.  With the home directory `/home/u` the relative
`word_file` `"../words.txt"` is returned as `/home/u/words.txt`, which is not
`<directory containing config.json>/<word_file>`, that is
`/home/u/english/../words.txt`.  With the relative home directory `a` the
`word_file` `"../../ "`, which is not empty after trimming, is returned as
`" "`, which is. -/
theorem config_resolution_counterexample :
    (loadConfig ⟨.ok "/home/u".toList, fun _ => .ok "json".toList,
        fun _ => .ok ⟨"../words.txt".toList, 10⟩⟩ = .ok ⟨"/home/u/words.txt".toList, 10⟩ ∧
      trimSpace "../words.txt".toList ≠ [] ∧ isAbs "../words.txt".toList = false ∧
      dir (join ["/home/u".toList, "english".toList, "config.json".toList]) =
        "/home/u/english".toList ∧
      "/home/u/words.txt".toList ≠
        "/home/u/english".toList ++ "/".toList ++ "../words.txt".toList) ∧
    (loadConfig ⟨.ok "a".toList, fun _ => .ok "json".toList,
        fun _ => .ok ⟨"../../ ".toList, 10⟩⟩ = .ok ⟨" ".toList, 10⟩ ∧
      trimSpace "../../ ".toList ≠ [] ∧ trimSpace " ".toList = []) :=
  ⟨⟨by rfl, by decide, by decide, by decide, by decide⟩, by rfl, by decide, by decide⟩

/-- C13 (config resolution), amended: once the home directory is known and the
config file is read and parsed, `loadConfig` fails when `word_file` is empty or
all white space; otherwise it returns the count unchanged, an absolute
`word_file` unchanged, and for a `word_file` that is not absolute the cleaned
form (`filepath.Join`) of `<directory containing config.json>/<word_file>`.
That cleaned form is `<home>/english/<word_file>` itself when the home
directory is an absolute path and both it and `word_file` are made of ordinary
path elements (non-empty, without `/`, neither `.` nor `..`).  Whenever the
home directory is an absolute path the returned data file path is non-empty
after trimming. -/
theorem config_resolution (env : ConfigEnv) (home b : Str) (cfg : Config)
    (hh : env.home = .ok home)
    (hr : env.readFile (join [home, "english".toList, "config.json".toList]) = .ok b)
    (hu : env.unmarshal b = .ok cfg) :
    (trimSpace cfg.WordFile = [] → ∃ e, loadConfig env = .error e) ∧
    (trimSpace cfg.WordFile ≠ [] → isAbs cfg.WordFile = true → loadConfig env = .ok cfg) ∧
    (trimSpace cfg.WordFile ≠ [] → isAbs cfg.WordFile = false →
      loadConfig env = .ok
        ⟨clean (dir (join [home, "english".toList, "config.json".toList]) ++
          '/' :: cfg.WordFile), cfg.Count⟩) ∧
    (∀ hc wc : List Str, hc ≠ [] → wc ≠ [] →
      (∀ e ∈ hc, e ≠ [] ∧ e ≠ ['.'] ∧ e ≠ ['.', '.'] ∧ '/' ∉ e) →
      (∀ e ∈ wc, e ≠ [] ∧ e ≠ ['.'] ∧ e ≠ ['.', '.'] ∧ '/' ∉ e) →
      home = '/' :: joinSlash hc → cfg.WordFile = joinSlash wc →
      trimSpace cfg.WordFile ≠ [] →
      dir (join [home, "english".toList, "config.json".toList]) = home ++ "/english".toList ∧
      loadConfig env = .ok ⟨home ++ "/english".toList ++ '/' :: cfg.WordFile, cfg.Count⟩) ∧
    (isAbs home = true → ∀ r, loadConfig env = .ok r → trimSpace r.WordFile ≠ []) := by
  have hrel : trimSpace cfg.WordFile ≠ [] → isAbs cfg.WordFile = false →
      loadConfig env = .ok
        ⟨clean (dir (join [home, "english".toList, "config.json".toList]) ++
          '/' :: cfg.WordFile), cfg.Count⟩ := by
    intro h1 h2
    have hd : dir (join [home, "english".toList, "config.json".toList]) ≠ [] :=
      clean_ne_nil _
    simp only [loadConfig, hh, hr, hu, h1, if_false, h2, Bool.not_false, if_true,
      join_two _ _ hd]
  have habs : trimSpace cfg.WordFile ≠ [] → isAbs cfg.WordFile = true →
      loadConfig env = .ok cfg := by
    intro h1 h2
    simp only [loadConfig, hh, hr, hu, h1, if_false, h2, Bool.not_true, Bool.false_eq_true]
  have hfail : trimSpace cfg.WordFile = [] → ∃ e, loadConfig env = .error e := by
    intro h1
    refine ⟨"word_file is empty in ".toList ++
      join [home, "english".toList, "config.json".toList], ?_⟩
    simp only [loadConfig, hh, hr, hu, h1, if_true]
  refine ⟨hfail, habs, hrel, ?_, ?_⟩
  · intro hc wc hhc hwc Hh Hw hhome hwf hne
    obtain ⟨h1, h2⟩ := resolve_plain hc wc hhc hwc Hh Hw
    have hna : isAbs cfg.WordFile = false := by
      rw [hwf]; exact isAbs_joinSlash_plain wc hwc Hw
    subst hhome
    refine ⟨h1, ?_⟩
    have hd : dir (join ['/' :: joinSlash hc, "english".toList, "config.json".toList]) ≠ [] :=
      clean_ne_nil _
    rw [hrel hne hna, hwf, ← join_two _ _ hd, h2]
  · intro hhabs r hr2
    by_cases h1 : trimSpace cfg.WordFile = []
    · obtain ⟨e, he⟩ := hfail h1
      rw [he] at hr2
      exact Except.noConfusion hr2
    · cases h2 : isAbs cfg.WordFile with
      | true =>
        rw [habs h1 h2] at hr2
        have := Except.ok.inj hr2
        subst this
        exact h1
      | false =>
        rw [hrel h1 h2] at hr2
        have := Except.ok.inj hr2
        subst this
        apply trimSpace_ne_nil_of_isAbs
        apply isAbs_clean
        have hne : home ≠ [] := by
          obtain ⟨rest, rfl⟩ := (isAbs_iff _).mp hhabs
          simp
        have hcp : isAbs (join [home, "english".toList, "config.json".toList]) = true := by
          rw [configPath_eq home hne]
          apply isAbs_clean
          obtain ⟨rest, rfl⟩ := (isAbs_iff _).mp hhabs
          exact (isAbs_iff _).mpr ⟨_, rfl⟩
        obtain ⟨rest, hrest⟩ := (isAbs_iff _).mp (isAbs_dir _ hcp)
        rw [hrest]
        exact (isAbs_iff _).mpr ⟨_, rfl⟩

/-- Witness for C13 (amended): the home directory `/home/u` and the `word_file`
`words.txt` give the data file `/home/u/english/words.txt`. -/
theorem config_resolution_witness :
    ((["home".toList, "u".toList] ≠ [] ∧ ["words.txt".toList] ≠ [] ∧
      (∀ e ∈ ["home".toList, "u".toList], e ≠ [] ∧ e ≠ ['.'] ∧ e ≠ ['.', '.'] ∧ '/' ∉ e) ∧
      (∀ e ∈ ["words.txt".toList], e ≠ [] ∧ e ≠ ['.'] ∧ e ≠ ['.', '.'] ∧ '/' ∉ e) ∧
      "/home/u".toList = '/' :: joinSlash ["home".toList, "u".toList] ∧
      "words.txt".toList = joinSlash ["words.txt".toList] ∧
      trimSpace "words.txt".toList ≠ [])) ∧
    (dir (join ["/home/u".toList, "english".toList, "config.json".toList]) =
        "/home/u".toList ++ "/english".toList ∧
      loadConfig ⟨.ok "/home/u".toList, fun _ => .ok "json".toList,
          fun _ => .ok ⟨"words.txt".toList, 10⟩⟩ =
        .ok ⟨"/home/u".toList ++ "/english".toList ++ '/' :: "words.txt".toList, 10⟩) :=
  ⟨by decide,
    (config_resolution
      ⟨.ok "/home/u".toList, fun _ => .ok "json".toList, fun _ => .ok ⟨"words.txt".toList, 10⟩⟩
      "/home/u".toList "json".toList ⟨"words.txt".toList, 10⟩ rfl rfl rfl).2.2.2.1
      ["home".toList, "u".toList] ["words.txt".toList] (by decide) (by decide) (by decide)
      (by decide) (by decide) (by decide) (by decide)⟩

end EnglishTool
